import Mathlib

/-!
Verification of the indradb property-graph database (memory backend and
validated identifiers), shallowly embedded from the Rust source.

Tables of the in-memory datastore (`BTreeMap`s in the source) are modelled
as association lists kept in ascending key order; `HashMap`/`HashSet` are
modelled as association lists / duplicate-free lists with no order
significance.  UUIDs are modelled as naturals (byte order of a UUID agrees
with numeric order), timestamps as naturals (injectable clock), and JSON
values as a tagged tree with integer numbers.
-/

/-- A UUID, modelled as a natural number; lexicographic byte order of UUIDs
agrees with numeric order. -/
abbrev Uuid := Nat

/-- The maximum UUID (all bytes 0xff). -/
def maxUuid : Uuid := 2 ^ 128 - 1

/-- A validated type / property-name string (`Type` in models/types.rs is a
wrapper around `String`; the datastore tables store the raw strings). -/
abbrev Typ := String

/-- Property names as used by the datastore tables (plain `String` keys in
memory/datastore.rs). -/
abbrev PropName := String

/-- Modelled from the spec: `util::next_uuid` is not under src/; per §7 the
successor computation fails (OutOfRange) exactly at the maximum UUID. -/
def next_uuid (id : Uuid) : Option Uuid :=
  if id = maxUuid then none else some (id + 1)

mutual

/-- JSON values (serde_json::Value), with numbers modelled as integers; the
claims under verification depend on JSON values only up to decidable
equality.  Arrays and objects are mutual inductives standing for the
element / entry lists. -/
inductive JsonValue : Type where
  | null : JsonValue
  | bool (b : Bool) : JsonValue
  | num (n : Int) : JsonValue
  | str (s : String) : JsonValue
  | arr (a : JsonArr) : JsonValue
  | obj (o : JsonObj) : JsonValue
deriving DecidableEq

/-- A JSON array: a list of JSON values. -/
inductive JsonArr : Type where
  | nil : JsonArr
  | cons (hd : JsonValue) (tl : JsonArr) : JsonArr
deriving DecidableEq

/-- A JSON object: a list of string-keyed JSON entries. -/
inductive JsonObj : Type where
  | nil : JsonObj
  | cons (key : String) (value : JsonValue) (tl : JsonObj) : JsonObj
deriving DecidableEq

end

/-- A vertex: id plus type (models/vertices.rs). -/
structure Vertex where
  id : Uuid
  t : Typ
deriving DecidableEq, Repr

/-- An edge key: `(outbound_id, t, inbound_id)` (models/edges.rs). -/
structure EdgeKey where
  outbound_id : Uuid
  t : Typ
  inbound_id : Uuid
deriving DecidableEq, Repr

/-- Model of `EdgeKey::reversed`: swap the endpoints. -/
def EdgeKey.reversed (k : EdgeKey) : EdgeKey :=
  ⟨k.inbound_id, k.t, k.outbound_id⟩

/-- Errors surfaced by the datastore (modelled from the spec §7 and the uses
in memory/datastore.rs; errors.rs is not under src/). -/
inductive Error : Type where
  | NotIndexed
  | Unsupported
  | Validation
  | OutOfRange
  | Io
  | Serialization
deriving DecidableEq, Repr

/-- Identifier/type validation errors (errors.rs is not under src/; the
variants are those used by models/types.rs and models/identifiers.rs). -/
inductive ValidationError : Type where
  | ValueTooLong
  | InvalidValue
deriving DecidableEq, Repr

/-- The outcome of running a Rust function that may return `Err` or panic
(`todo!()` / `.unwrap()` on an error). -/
inductive RunResult (α : Type) : Type where
  | ok (a : α)
  | err (e : Error)
  | panics
deriving DecidableEq, Repr

/-- Direction of a pipe (models/edges.rs `EdgeDirection`). -/
inductive EdgeDirection : Type where
  | Outbound
  | Inbound
deriving DecidableEq, Repr

/- ### Ordered-map and hash-map primitives -/

/-- Byte/scalar lexicographic order on char lists (Rust `String` `Ord`). -/
def listCharLtB : List Char → List Char → Bool
  | _, [] => false
  | [], _ :: _ => true
  | a :: as, b :: bs =>
    decide (a.toNat < b.toNat) || (decide (a = b) && listCharLtB as bs)

/-- Lexicographic order on strings. -/
def strLtB (a b : String) : Bool :=
  listCharLtB a.data b.data

/-- Order on `(Uuid, name)` keys of the property tables. -/
def vpKeyLtB (a b : Uuid × PropName) : Bool :=
  decide (a.1 < b.1) || (decide (a.1 = b.1) && strLtB a.2 b.2)

/-- Derived lexicographic order on `EdgeKey` (field order of the struct). -/
def edgeKeyLtB (a b : EdgeKey) : Bool :=
  decide (a.outbound_id < b.outbound_id) ||
    (decide (a.outbound_id = b.outbound_id) &&
      (strLtB a.t b.t || (decide (a.t = b.t) && decide (a.inbound_id < b.inbound_id))))

/-- Order on `(EdgeKey, name)` keys of the edge-property table. -/
def epKeyLtB (a b : EdgeKey × PropName) : Bool :=
  edgeKeyLtB a.1 b.1 || (decide (a.1 = b.1) && strLtB a.2 b.2)

/-- Order on vertex ids. -/
def uuidLtB (a b : Uuid) : Bool :=
  decide (a < b)

/-- Model of `BTreeMap::get` on an association list. -/
def assocGet {K V : Type} [DecidableEq K] : List (K × V) → K → Option V
  | [], _ => none
  | p :: rest, k => if p.1 = k then some p.2 else assocGet rest k

/-- Model of `BTreeMap::insert` on a sorted association list: insert in order,
replacing the value when the key is already present. -/
def sortedInsert {K V : Type} [DecidableEq K] (ltB : K → K → Bool) :
    List (K × V) → K → V → List (K × V)
  | [], k, v => [(k, v)]
  | (k', v') :: rest, k, v =>
    if ltB k k' then (k, v) :: (k', v') :: rest
    else if k = k' then (k, v) :: rest
    else (k', v') :: sortedInsert ltB rest k v

/-- Model of `BTreeMap::remove` on an association list. -/
def assocRemove {K V : Type} [DecidableEq K] (m : List (K × V)) (k : K) : List (K × V) :=
  m.filter (fun p => decide (p.1 ≠ k))

/-- Remove a list of keys one by one. -/
def removeKeys {K V : Type} [DecidableEq K] (m : List (K × V)) (ks : List K) : List (K × V) :=
  ks.foldl (fun acc k => assocRemove acc k) m

/-- Model of `BTreeMap::range(lb..)` on a sorted association list. -/
def rangeFrom {K V : Type} (ltB : K → K → Bool) (m : List (K × V)) (lb : K) : List (K × V) :=
  m.dropWhile (fun p => ltB p.1 lb)

/-- Model of `HashMap::insert` / entry update on an unordered association list. -/
def assocUpdate {K V : Type} [DecidableEq K] : List (K × V) → K → V → List (K × V)
  | [], k, v => [(k, v)]
  | (k', v') :: rest, k, v =>
    if k = k' then (k, v) :: rest else (k', v') :: assocUpdate rest k v

/-- Model of `HashSet::insert` on a duplicate-free list. -/
def setInsert {α : Type} [DecidableEq α] (s : List α) (a : α) : List α :=
  if a ∈ s then s else s ++ [a]

/- ### The in-memory datastore state (memory/datastore.rs) -/

/-- The seven tables of `InternalMemoryDatastore`.  `BTreeMap`s become
key-sorted association lists, the two `HashMap`-of-`HashMap`-of-`HashSet`
property-value indexes become nested association lists. -/
structure InternalMemoryDatastore where
  vertices : List (Uuid × Typ) := []
  edges : List (EdgeKey × Nat) := []
  reversed_edges : List (EdgeKey × Nat) := []
  vertex_properties : List ((Uuid × PropName) × JsonValue) := []
  edge_properties : List ((EdgeKey × PropName) × JsonValue) := []
  vertex_property_values : List (PropName × List (JsonValue × List Uuid)) := []
  edge_property_values : List (PropName × List (JsonValue × List EdgeKey)) := []
deriving DecidableEq

/-- The empty datastore (`InternalMemoryDatastore::default()`). -/
def emptyStore : InternalMemoryDatastore := {}

/- ### Query AST (old-interface `VertexQuery` / `EdgeQuery`, as consumed by
memory/datastore.rs) -/

mutual

/-- Vertex queries (models/queries.rs, old interface). -/
inductive VertexQuery : Type where
  | Range (start_id : Option Uuid) (t : Option Typ) (limit : Nat)
  | Specific (ids : List Uuid)
  | Pipe (inner : EdgeQuery) (direction : EdgeDirection) (t : Option Typ) (limit : Nat)
  | PropertyPresence (name : PropName)
  | PropertyValue (name : PropName) (value : JsonValue)
  | PipePropertyPresence (inner : VertexQuery) (name : PropName) (exists_b : Bool)
  | PipePropertyValue (inner : VertexQuery) (name : PropName) (value : JsonValue) (equal : Bool)

/-- Edge queries (models/queries.rs, old interface). -/
inductive EdgeQuery : Type where
  | Specific (keys : List EdgeKey)
  | Pipe (inner : VertexQuery) (direction : EdgeDirection) (t : Option Typ)
      (high : Option Nat) (low : Option Nat) (limit : Nat)
  | PropertyPresence (name : PropName)
  | PropertyValue (name : PropName) (value : JsonValue)
  | PipePropertyPresence (inner : EdgeQuery) (name : PropName) (exists_b : Bool)
  | PipePropertyValue (inner : EdgeQuery) (name : PropName) (value : JsonValue) (equal : Bool)

end

/-- A vertex-property query `{inner, name}`. -/
structure VertexPropertyQuery : Type where
  inner : VertexQuery
  name : PropName

/-- An edge-property query `{inner, name}`. -/
structure EdgePropertyQuery : Type where
  inner : EdgeQuery
  name : PropName

/-- Model of `InternalMemoryDatastore::get_all_vertices_with_property`: the union of
the id sets under an indexed name; `none` models the `NotIndexed` error. -/
def InternalMemoryDatastore.get_all_vertices_with_property
    (s : InternalMemoryDatastore) (property_name : PropName) : Option (List Uuid) :=
  match assocGet s.vertex_property_values property_name with
  | some container =>
    some (container.foldl (fun acc pv => pv.2.foldl (fun a id => setInsert a id) acc) [])
  | none => none

mutual

/-- Model of `InternalMemoryDatastore::get_vertex_values_by_query`.  The
`PipePropertyValue` arm of the source is `todo!()`, which panics. -/
def InternalMemoryDatastore.get_vertex_values_by_query
    (s : InternalMemoryDatastore) : VertexQuery → RunResult (List (Uuid × Typ))
  | .Range start_id t limit =>
    let iter0 : List (Uuid × Typ) := match start_id with
      | some sid => rangeFrom uuidLtB s.vertices sid
      | none => s.vertices
    let iter1 : List (Uuid × Typ) := match t with
      | some ty => iter0.filter (fun p => decide (p.2 = ty))
      | none => iter0
    .ok (iter1.take limit)
  | .Specific ids =>
    .ok (ids.filterMap (fun id => (assocGet s.vertices id).map (fun t => (id, t))))
  | .Pipe inner direction t limit =>
    match s.get_edge_values_by_query inner with
    | .err e => .err e
    | .panics => .panics
    | .ok edge_values =>
      let ids : List Uuid := edge_values.map (fun p =>
        match direction with
        | .Outbound => p.1.outbound_id
        | .Inbound => p.1.inbound_id)
      let iter0 : List (Uuid × Typ) := ids.filterMap (fun id => (assocGet s.vertices id).map (fun t => (id, t)))
      let iter1 : List (Uuid × Typ) := match t with
        | some ty => iter0.filter (fun p => decide (p.2 = ty))
        | none => iter0
      .ok (iter1.take limit)
  | .PropertyPresence name =>
    match s.get_all_vertices_with_property name with
    | none => .err .NotIndexed
    | some ids =>
      .ok (ids.filterMap (fun id => (assocGet s.vertices id).map (fun t => (id, t))))
  | .PropertyValue name value =>
    match assocGet s.vertex_property_values name with
    | none => .err .NotIndexed
    | some container =>
      match assocGet container value with
      | some sub =>
        .ok (sub.filterMap (fun id => (assocGet s.vertices id).map (fun t => (id, t))))
      | none => .ok []
  | .PipePropertyPresence inner name exists_b =>
    match assocGet s.vertex_property_values name with
    | none => .err .NotIndexed
    | some _ =>
      match s.get_all_vertices_with_property name with
      | none => .err .NotIndexed
      | some vertices_with_property =>
        match s.get_vertex_values_by_query inner with
        | .err e => .err e
        | .panics => .panics
        | .ok vertex_values =>
          if exists_b then
            .ok (vertex_values.filter (fun p => decide (p.1 ∈ vertices_with_property)))
          else
            .ok (vertex_values.filter (fun p => decide (p.1 ∉ vertices_with_property)))
  | .PipePropertyValue _ _ _ _ => .panics

/-- Model of `InternalMemoryDatastore::get_edge_values_by_query`.  All four
property-predicate arms of the source are `todo!()`, which panics. -/
def InternalMemoryDatastore.get_edge_values_by_query
    (s : InternalMemoryDatastore) : EdgeQuery → RunResult (List (EdgeKey × Nat))
  | .Specific keys =>
    .ok (keys.filterMap (fun key => (assocGet s.edges key).map (fun dt => (key, dt))))
  | .Pipe inner direction t high low limit =>
    match s.get_vertex_values_by_query inner with
    | .err e => .err e
    | .panics => .panics
    | .ok vertex_values =>
      let segs : List (List (EdgeKey × Nat)) := vertex_values.map (fun p =>
        let lower_bound : EdgeKey := match t with
          | some ty => ⟨p.1, ty, 0⟩
          | none => ⟨p.1, "", 0⟩
        let table := match direction with
          | .Outbound => s.edges
          | .Inbound => s.reversed_edges
        (rangeFrom edgeKeyLtB table lower_bound).takeWhile
          (fun q => decide (q.1.outbound_id = p.1)))
      let iter0 : List (EdgeKey × Nat) := segs.flatten
      let iter1 : List (EdgeKey × Nat) := match t with
        | some ty => iter0.filter (fun q => decide (q.1.t = ty))
        | none => iter0
      let iter2 : List (EdgeKey × Nat) := match high with
        | some h => iter1.filter (fun q => decide (q.2 ≤ h))
        | none => iter1
      let iter3 : List (EdgeKey × Nat) := match low with
        | some lo => iter2.filter (fun q => decide (lo ≤ q.2))
        | none => iter2
      let iter4 := iter3.take limit
      match direction with
      | .Outbound => .ok iter4
      | .Inbound => .ok (iter4.map (fun q => (q.1.reversed, q.2)))
  | .PropertyPresence _ => .panics
  | .PropertyValue _ _ => .panics
  | .PipePropertyPresence _ _ _ => .panics
  | .PipePropertyValue _ _ _ _ => .panics

end

/- ### Internal deletion cascades (memory/datastore.rs) -/

/-- The vertex-property keys collected by the deletion loop of
`InternalMemoryDatastore::delete_vertices`: iterate
`vertex_properties.range((vertex_id, "")..)` and stop at the first key
owned by a different vertex. -/
def deletableVertexProperties (s : InternalMemoryDatastore) (vertex_id : Uuid) :
    List (Uuid × PropName) :=
  ((rangeFrom vpKeyLtB s.vertex_properties (vertex_id, "")).takeWhile
    (fun p => decide (p.1.1 = vertex_id))).map (fun p => p.1)

/-- The edge-property keys collected by the deletion loop of
`InternalMemoryDatastore::delete_edges`: iterate
`edge_properties.range((edge_key, "")..)` and stop at the first key owned
by a different edge. -/
def deletableEdgeProperties (s : InternalMemoryDatastore) (edge_key : EdgeKey) :
    List (EdgeKey × PropName) :=
  ((rangeFrom epKeyLtB s.edge_properties (edge_key, "")).takeWhile
    (fun p => decide (p.1.1 = edge_key))).map (fun p => p.1)

/-- One iteration of the loop in `InternalMemoryDatastore::delete_edges`. -/
def deleteEdgeStep (s : InternalMemoryDatastore) (edge_key : EdgeKey) :
    InternalMemoryDatastore :=
  let s1 := { s with
    edges := assocRemove s.edges edge_key,
    reversed_edges := assocRemove s.reversed_edges edge_key.reversed }
  { s1 with
    edge_properties := removeKeys s1.edge_properties (deletableEdgeProperties s1 edge_key) }

/-- Model of `InternalMemoryDatastore::delete_edges`: remove each edge from the
forward and reversed tables and drop every one of its properties. -/
def InternalMemoryDatastore.delete_edges (s : InternalMemoryDatastore)
    (edges : List EdgeKey) : InternalMemoryDatastore :=
  edges.foldl deleteEdgeStep s

/-- One iteration of the loop in
`InternalMemoryDatastore::delete_vertices`. -/
def deleteVertexStep (s : InternalMemoryDatastore) (vertex_id : Uuid) :
    InternalMemoryDatastore :=
  let s1 := { s with vertices := assocRemove s.vertices vertex_id }
  let s2 := { s1 with
    vertex_properties := removeKeys s1.vertex_properties (deletableVertexProperties s1 vertex_id) }
  let deletable_edges := (s2.edges.map (fun p => p.1)).filter
    (fun k => decide (k.outbound_id = vertex_id) || decide (k.inbound_id = vertex_id))
  s2.delete_edges deletable_edges

/-- Model of `InternalMemoryDatastore::delete_vertices`. -/
def InternalMemoryDatastore.delete_vertices (s : InternalMemoryDatastore)
    (vertices : List Uuid) : InternalMemoryDatastore :=
  vertices.foldl deleteVertexStep s

/- ### Transaction operations (MemoryTransaction in memory/datastore.rs) -/

/-- Model of `MemoryTransaction::create_vertex`: insert only if the id is vacant
(`entry(..).or_insert_with`), reporting whether an insert happened. -/
def MemoryTransaction.create_vertex (s : InternalMemoryDatastore) (vertex : Vertex) :
    Bool × InternalMemoryDatastore :=
  match assocGet s.vertices vertex.id with
  | some _ => (false, s)
  | none => (true, { s with vertices := sortedInsert uuidLtB s.vertices vertex.id vertex.t })

/-- Model of `MemoryTransaction::create_edge`: refuse (returning `false`) when either
endpoint vertex is absent; otherwise insert into both edge tables
(overwriting the update time if the edge already exists) and return
`true`.  `now` models the injected clock value `Utc::now()`. -/
def MemoryTransaction.create_edge (s : InternalMemoryDatastore) (key : EdgeKey)
    (now : Nat) : Bool × InternalMemoryDatastore :=
  if (assocGet s.vertices key.outbound_id).isNone ||
      (assocGet s.vertices key.inbound_id).isNone then
    (false, s)
  else
    (true, { s with
      edges := sortedInsert edgeKeyLtB s.edges key now,
      reversed_edges := sortedInsert edgeKeyLtB s.reversed_edges key.reversed now })

/-- Model of `MemoryTransaction::get_vertices`. -/
def MemoryTransaction.get_vertices (s : InternalMemoryDatastore) (q : VertexQuery) :
    RunResult (List Vertex) :=
  match s.get_vertex_values_by_query q with
  | .ok l => .ok (l.map (fun p => ⟨p.1, p.2⟩))
  | .err e => .err e
  | .panics => .panics

/-- Model of `MemoryTransaction::delete_vertices` (the query-driven transaction
method). -/
def MemoryTransaction.delete_vertices (s : InternalMemoryDatastore) (q : VertexQuery) :
    RunResult InternalMemoryDatastore :=
  match s.get_vertex_values_by_query q with
  | .ok l => .ok (s.delete_vertices (l.map (fun p => p.1)))
  | .err e => .err e
  | .panics => .panics

/-- Model of `MemoryTransaction::get_edges`. -/
def MemoryTransaction.get_edges (s : InternalMemoryDatastore) (q : EdgeQuery) :
    RunResult (List (EdgeKey × Nat)) :=
  match s.get_edge_values_by_query q with
  | .ok l => .ok l
  | .err e => .err e
  | .panics => .panics

/-- Model of `MemoryTransaction::delete_edges` (the query-driven transaction
method). -/
def MemoryTransaction.delete_edges (s : InternalMemoryDatastore) (q : EdgeQuery) :
    RunResult InternalMemoryDatastore :=
  match s.get_edge_values_by_query q with
  | .ok l => .ok (s.delete_edges (l.map (fun p => p.1)))
  | .err e => .err e
  | .panics => .panics

/-- Model of `MemoryTransaction::set_vertex_properties`: store `value` under
`(id, name)` for every vertex produced by the inner query.  The source
performs no validation of `value`; JSON `null` is stored like any other
value. -/
def MemoryTransaction.set_vertex_properties (s : InternalMemoryDatastore)
    (q : VertexPropertyQuery) (value : JsonValue) : RunResult InternalMemoryDatastore :=
  match s.get_vertex_values_by_query q.inner with
  | .ok l =>
    .ok { s with vertex_properties :=
            l.foldl (fun m p => sortedInsert vpKeyLtB m (p.1, q.name) value) s.vertex_properties }
  | .err e => .err e
  | .panics => .panics

/-- Model of `MemoryTransaction::delete_vertex_properties`. -/
def MemoryTransaction.delete_vertex_properties (s : InternalMemoryDatastore)
    (q : VertexPropertyQuery) : RunResult InternalMemoryDatastore :=
  match s.get_vertex_values_by_query q.inner with
  | .ok l =>
    .ok { s with vertex_properties :=
            l.foldl (fun m p => assocRemove m (p.1, q.name)) s.vertex_properties }
  | .err e => .err e
  | .panics => .panics

/-- Model of `MemoryTransaction::set_edge_properties`: store `value` under
`(key, name)` for every edge produced by the inner query; no validation of
`value` is performed. -/
def MemoryTransaction.set_edge_properties (s : InternalMemoryDatastore)
    (q : EdgePropertyQuery) (value : JsonValue) : RunResult InternalMemoryDatastore :=
  match s.get_edge_values_by_query q.inner with
  | .ok l =>
    .ok { s with edge_properties :=
            l.foldl (fun m p => sortedInsert epKeyLtB m (p.1, q.name) value) s.edge_properties }
  | .err e => .err e
  | .panics => .panics

/-- Model of `MemoryTransaction::get_vertex_properties`. -/
def MemoryTransaction.get_vertex_properties (s : InternalMemoryDatastore)
    (q : VertexPropertyQuery) : RunResult (List (Uuid × JsonValue)) :=
  match s.get_vertex_values_by_query q.inner with
  | .ok l =>
    .ok (l.filterMap (fun p => (assocGet s.vertex_properties (p.1, q.name)).map
      (fun v => (p.1, v))))
  | .err e => .err e
  | .panics => .panics

/-- The per-vertex body of `MemoryTransaction::get_all_vertex_properties`:
`next_uuid(id).unwrap()` panics when `id` is the maximum UUID; otherwise
the properties in `vertex_properties.range((id, "")..(next, ""))` are
collected. -/
def gavpGo (s : InternalMemoryDatastore) :
    List (Uuid × Typ) → RunResult (List (Vertex × List (PropName × JsonValue)))
  | [] => .ok []
  | (id, t) :: rest =>
    match next_uuid id with
    | none => .panics
    | some nid =>
      let props := (rangeFrom vpKeyLtB s.vertex_properties (id, "")).takeWhile
        (fun p => vpKeyLtB p.1 (nid, ""))
      match gavpGo s rest with
      | .ok l => .ok ((⟨id, t⟩, props.map (fun p => (p.1.2, p.2))) :: l)
      | .err e => .err e
      | .panics => .panics

/-- Model of `MemoryTransaction::get_all_vertex_properties`. -/
def MemoryTransaction.get_all_vertex_properties (s : InternalMemoryDatastore)
    (q : VertexQuery) : RunResult (List (Vertex × List (PropName × JsonValue))) :=
  match s.get_vertex_values_by_query q with
  | .ok l => gavpGo s l
  | .err e => .err e
  | .panics => .panics

/- ### Property indexing (MemoryDatastore::index_vertex_property /
index_edge_property) -/

/-- Model of `MemoryDatastore::index_vertex_property`: back-fill the value index for
`name` from the current vertices and their properties.  The source ends
with `// TODO: keep index up to date`; no other operation maintains this
index. -/
def MemoryDatastore.index_vertex_property (s : InternalMemoryDatastore)
    (name : PropName) : InternalMemoryDatastore :=
  let property_container : List (JsonValue × List Uuid) :=
    s.vertices.foldl (fun acc p =>
      match assocGet s.vertex_properties (p.1, name) with
      | some value => assocUpdate acc value (setInsert ((assocGet acc value).getD []) p.1)
      | none => acc) []
  let existing : List (JsonValue × List Uuid) :=
    (assocGet s.vertex_property_values name).getD []
  let merged : List (JsonValue × List Uuid) :=
    property_container.foldl (fun ex pv =>
      pv.2.foldl (fun ex2 id => assocUpdate ex2 pv.1 (setInsert ((assocGet ex2 pv.1).getD []) id)) ex)
      existing
  { s with vertex_property_values := assocUpdate s.vertex_property_values name merged }

/-- Model of `MemoryDatastore::index_edge_property`, symmetric to the vertex case;
also followed by `// TODO: keep index up to date` in the source. -/
def MemoryDatastore.index_edge_property (s : InternalMemoryDatastore)
    (name : PropName) : InternalMemoryDatastore :=
  let property_container : List (JsonValue × List EdgeKey) :=
    s.edges.foldl (fun acc p =>
      match assocGet s.edge_properties (p.1, name) with
      | some value => assocUpdate acc value (setInsert ((assocGet acc value).getD []) p.1)
      | none => acc) []
  let existing : List (JsonValue × List EdgeKey) :=
    (assocGet s.edge_property_values name).getD []
  let merged : List (JsonValue × List EdgeKey) :=
    property_container.foldl (fun ex pv =>
      pv.2.foldl (fun ex2 id => assocUpdate ex2 pv.1 (setInsert ((assocGet ex2 pv.1).getD []) id)) ex)
      existing
  { s with edge_property_values := assocUpdate s.edge_property_values name merged }

/- ### Validated type constructor (models/types.rs) -/

/-- Model of `Type::new` (models/types.rs): reject strings longer than 255 bytes
(`s.len()` in Rust is the UTF-8 byte length) with `ValueTooLong`, then
strings containing a character that is neither `-`, `_` nor alphanumeric
with `InvalidValue`.  Rust's Unicode `char::is_alphanumeric` is a
parameter. -/
def Typ.new (alnum : Char → Bool) (s : String) : Except ValidationError Typ :=
  if 255 < s.utf8ByteSize then .error .ValueTooLong
  else if !(s.data.all fun c => decide (c = '-') || decide (c = '_') || alnum c) then
    .error .InvalidValue
  else .ok s

/- ### Concrete example stores (built through the transaction operations) -/

/-- Example: two vertices 1 and 2 of type "t". -/
def exS2 : InternalMemoryDatastore :=
  (MemoryTransaction.create_vertex
    (MemoryTransaction.create_vertex emptyStore ⟨1, "t"⟩).2 ⟨2, "t"⟩).2

/-- The example edge `1 -e-> 2`. -/
def exEk : EdgeKey := ⟨1, "e", 2⟩

/-- Example: vertices 1, 2 and the edge `1 -e-> 2` created at time 5. -/
def exS3 : InternalMemoryDatastore :=
  (MemoryTransaction.create_edge exS2 exEk 5).2

/-- Extract the store from an `ok` outcome (used only to name concrete
result states in closed statements). -/
def runStore (r : RunResult InternalMemoryDatastore) : InternalMemoryDatastore :=
  match r with
  | .ok s => s
  | _ => emptyStore

/-- Example: `exS3` after `index_vertex_property("p")` (no vertex has `p`
yet, so the index holds an empty container for `p`). -/
def exIdx : InternalMemoryDatastore :=
  MemoryDatastore.index_vertex_property exS3 "p"

/-- Example: `exIdx` after setting property `p := true` on vertex 1. -/
def exIdxSet : InternalMemoryDatastore :=
  runStore (MemoryTransaction.set_vertex_properties exIdx ⟨.Specific [1], "p"⟩ (.bool true))

/-- Example: a store holding a vertex whose id is the maximum UUID. -/
def exSmax : InternalMemoryDatastore :=
  (MemoryTransaction.create_vertex emptyStore ⟨maxUuid, "t"⟩).2

/-- Example: a store with the single vertex 1. -/
def exS1 : InternalMemoryDatastore :=
  (MemoryTransaction.create_vertex emptyStore ⟨1, "t"⟩).2

/-- Specification-side description of `RangeVertex` (spec §4.2): vertices
with id ≥ `start_id` (all vertices when absent), filtered to type `t` when
present, truncated to `limit` after the type filter. -/
def rangeVertexSpec (s : InternalMemoryDatastore) (start_id : Option Uuid)
    (t : Option Typ) (limit : Nat) : List (Uuid × Typ) :=
  ((s.vertices.filter fun p => match start_id with
      | some sid => decide (sid ≤ p.1)
      | none => true).filter fun p => match t with
      | some ty => decide (p.2 = ty)
      | none => true).take limit

/-- The iterator chain of the edge `Pipe` arm over a fixed table: per-vertex
range segments with lower bound `lbf`, optional type and update-time
filters, truncation. -/
def pipeChain (table : List (EdgeKey × Nat)) (lbf : Uuid × Typ → EdgeKey)
    (vertex_values : List (Uuid × Typ))
    (t : Option Typ) (high low : Option Nat) (limit : Nat) : List (EdgeKey × Nat) :=
  let segs : List (List (EdgeKey × Nat)) := vertex_values.map (fun p =>
    (rangeFrom edgeKeyLtB table (lbf p)).takeWhile
      (fun q => decide (q.1.outbound_id = p.1)))
  let iter0 : List (EdgeKey × Nat) := segs.flatten
  let iter1 : List (EdgeKey × Nat) := match t with
    | some ty => iter0.filter (fun q => decide (q.1.t = ty))
    | none => iter0
  let iter2 : List (EdgeKey × Nat) := match high with
    | some h => iter1.filter (fun q => decide (q.2 ≤ h))
    | none => iter1
  let iter3 : List (EdgeKey × Nat) := match low with
    | some lo => iter2.filter (fun q => decide (lo ≤ q.2))
    | none => iter2
  iter3.take limit

/-- The store after the vertex-removal and vertex-property-removal steps of
the `delete_vertices` loop body, before incident edges are deleted. -/
def afterVertexRemoval (s : InternalMemoryDatastore) (v : Uuid) : InternalMemoryDatastore :=
  { s with vertices := assocRemove s.vertices v,
           vertex_properties := removeKeys s.vertex_properties
             (deletableVertexProperties
               { s with vertices := assocRemove s.vertices v } v) }

/-- The incident-edge keys collected by the `delete_vertices` loop body. -/
def incidentEdgeKeys (s : InternalMemoryDatastore) (v : Uuid) : List EdgeKey :=
  (s.edges.map (fun p => p.1)).filter
    (fun k => decide (k.outbound_id = v) || decide (k.inbound_id = v))

/- ### Persistence (MemoryDatastore sync / read)

Modelled from the spec: bincode serialization, `tempfile::NamedTempFile` and
the write-temp-then-rename protocol are external crates / std-library code,
not under src/.  Per §4.4 and §6 of the spec, `sync` writes a
self-describing binary encoding of the seven tables and atomically renames
it over the target path; the encoding below is such an encoding over an
alphabet of naturals, and the file system is a map from paths to encoded
content on which the rename is an atomic replacement. -/

/-- A natural: one token. -/
def encNat (n : Nat) : List Nat := [n]

def decNat : List Nat → Option (Nat × List Nat)
  | [] => none
  | n :: rest => some (n, rest)

/-- A length-prefixed list. -/
def encList {α : Type} (enc : α → List Nat) (l : List α) : List Nat :=
  l.length :: (l.map enc).flatten

def decListAux {α : Type} (dec : List Nat → Option (α × List Nat)) :
    Nat → List Nat → Option (List α × List Nat)
  | 0, rest => some ([], rest)
  | n + 1, rest =>
    match dec rest with
    | none => none
    | some (a, r1) =>
      match decListAux dec n r1 with
      | none => none
      | some (as, r2) => some (a :: as, r2)

def decList {α : Type} (dec : List Nat → Option (α × List Nat)) :
    List Nat → Option (List α × List Nat)
  | [] => none
  | n :: rest => decListAux dec n rest

/-- A character: its scalar value. -/
def encChar (c : Char) : List Nat := [c.toNat]

def decChar : List Nat → Option (Char × List Nat)
  | [] => none
  | n :: rest => some (Char.ofNat n, rest)

/-- A length-prefixed string. -/
def encStr (s : String) : List Nat := encList encChar s.data

def decStr (l : List Nat) : Option (String × List Nat) :=
  match decList decChar l with
  | some (cs, rest) => some (String.mk cs, rest)
  | none => none

/-- An integer: sign tag plus magnitude. -/
def encInt : Int → List Nat
  | .ofNat n => [0, n]
  | .negSucc n => [1, n]

def decInt : List Nat → Option (Int × List Nat)
  | 0 :: n :: rest => some (.ofNat n, rest)
  | 1 :: n :: rest => some (.negSucc n, rest)
  | _ => none

/-- A pair: the two encodings in sequence. -/
def encPair {α β : Type} (f : α → List Nat) (g : β → List Nat) (p : α × β) : List Nat :=
  f p.1 ++ g p.2

def decPair {α β : Type} (df : List Nat → Option (α × List Nat))
    (dg : List Nat → Option (β × List Nat)) (l : List Nat) : Option ((α × β) × List Nat) :=
  match df l with
  | none => none
  | some (a, r1) =>
    match dg r1 with
    | none => none
    | some (b, r2) => some ((a, b), r2)

/-- An edge key: the three components in sequence. -/
def encEdgeKey (k : EdgeKey) : List Nat :=
  encNat k.outbound_id ++ (encStr k.t ++ encNat k.inbound_id)

def decEdgeKey (l : List Nat) : Option (EdgeKey × List Nat) :=
  match decNat l with
  | none => none
  | some (o, r1) =>
    match decStr r1 with
    | none => none
    | some (t, r2) =>
      match decNat r2 with
      | none => none
      | some (i, r3) => some (⟨o, t, i⟩, r3)

mutual

/-- Sizes of JSON values, used as decoder fuel. -/
def jsize : JsonValue → Nat
  | .null => 1
  | .bool _ => 1
  | .num _ => 1
  | .str _ => 1
  | .arr a => 1 + asize a
  | .obj o => 1 + osize o

def asize : JsonArr → Nat
  | .nil => 1
  | .cons v tl => 1 + jsize v + asize tl

def osize : JsonObj → Nat
  | .nil => 1
  | .cons _ v tl => 1 + jsize v + osize tl

end

mutual

/-- A JSON value: tag plus payload. -/
def encJson : JsonValue → List Nat
  | .null => [0]
  | .bool b => [1, cond b 1 0]
  | .num i => 2 :: encInt i
  | .str s => 3 :: encStr s
  | .arr a => 4 :: encJsonArr a
  | .obj o => 5 :: encJsonObj o

def encJsonArr : JsonArr → List Nat
  | .nil => [0]
  | .cons v tl => 1 :: (encJson v ++ encJsonArr tl)

def encJsonObj : JsonObj → List Nat
  | .nil => [0]
  | .cons k v tl => 1 :: (encStr k ++ (encJson v ++ encJsonObj tl))

end

mutual

def decJson : Nat → List Nat → Option (JsonValue × List Nat)
  | 0, _ => none
  | _ + 1, 0 :: rest => some (.null, rest)
  | _ + 1, 1 :: b :: rest => some (.bool (b == 1), rest)
  | _ + 1, 2 :: rest =>
    match decInt rest with
    | some (i, r) => some (.num i, r)
    | none => none
  | _ + 1, 3 :: rest =>
    match decStr rest with
    | some (s, r) => some (.str s, r)
    | none => none
  | f + 1, 4 :: rest =>
    match decJsonArr f rest with
    | some (a, r) => some (.arr a, r)
    | none => none
  | f + 1, 5 :: rest =>
    match decJsonObj f rest with
    | some (o, r) => some (.obj o, r)
    | none => none
  | _ + 1, _ => none

def decJsonArr : Nat → List Nat → Option (JsonArr × List Nat)
  | 0, _ => none
  | _ + 1, 0 :: rest => some (.nil, rest)
  | f + 1, 1 :: rest =>
    match decJson f rest with
    | some (v, r1) =>
      match decJsonArr f r1 with
      | some (tl, r2) => some (.cons v tl, r2)
      | none => none
    | none => none
  | _ + 1, _ => none

def decJsonObj : Nat → List Nat → Option (JsonObj × List Nat)
  | 0, _ => none
  | _ + 1, 0 :: rest => some (.nil, rest)
  | f + 1, 1 :: rest =>
    match decStr rest with
    | some (k, r0) =>
      match decJson f r0 with
      | some (v, r1) =>
        match decJsonObj f r1 with
        | some (tl, r2) => some (.cons k v tl, r2)
        | none => none
      | none => none
    | none => none
  | _ + 1, _ => none

end

/-- A JSON value with its own size prefixed as decoder fuel (self-describing). -/
def encJsonTop (v : JsonValue) : List Nat := jsize v :: encJson v

def decJsonTop : List Nat → Option (JsonValue × List Nat)
  | [] => none
  | f :: rest => decJson f rest

/-- The seven tables in sequence. -/
def encStore (s : InternalMemoryDatastore) : List Nat :=
  encList (encPair encNat encStr) s.vertices
  ++ (encList (encPair encEdgeKey encNat) s.edges
  ++ (encList (encPair encEdgeKey encNat) s.reversed_edges
  ++ (encList (encPair (encPair encNat encStr) encJsonTop) s.vertex_properties
  ++ (encList (encPair (encPair encEdgeKey encStr) encJsonTop) s.edge_properties
  ++ (encList (encPair encStr (encList (encPair encJsonTop (encList encNat))))
        s.vertex_property_values
  ++ encList (encPair encStr (encList (encPair encJsonTop (encList encEdgeKey))))
        s.edge_property_values)))))

def decStore (l : List Nat) : Option (InternalMemoryDatastore × List Nat) :=
  match decList (decPair decNat decStr) l with
  | none => none
  | some (vertices, r1) =>
    match decList (decPair decEdgeKey decNat) r1 with
    | none => none
    | some (edges, r2) =>
      match decList (decPair decEdgeKey decNat) r2 with
      | none => none
      | some (reversed_edges, r3) =>
        match decList (decPair (decPair decNat decStr) decJsonTop) r3 with
        | none => none
        | some (vertex_properties, r4) =>
          match decList (decPair (decPair decEdgeKey decStr) decJsonTop) r4 with
          | none => none
          | some (edge_properties, r5) =>
            match decList (decPair decStr (decList (decPair decJsonTop (decList decNat)))) r5 with
            | none => none
            | some (vertex_property_values, r6) =>
              match decList (decPair decStr (decList (decPair decJsonTop (decList decEdgeKey)))) r6 with
              | none => none
              | some (edge_property_values, r7) =>
                some (⟨vertices, edges, reversed_edges, vertex_properties,
                  edge_properties, vertex_property_values, edge_property_values⟩, r7)

/-- The in-memory datastore handle: internal state plus optional
persistence path (memory/datastore.rs `MemoryDatastore`). -/
structure MemoryDatastore where
  datastore : InternalMemoryDatastore
  path : Option String
deriving DecidableEq

/-- Model of `MemoryDatastore::default()`: empty store, no persistence path. -/
def MemoryDatastore.default : MemoryDatastore := ⟨emptyStore, none⟩

/-- Model of `MemoryDatastore::create(path)`: empty store remembering `path`. -/
def MemoryDatastore.create (p : String) : MemoryDatastore := ⟨emptyStore, some p⟩

/-- The file system: a map from paths to encoded content. -/
abbrev FS := List (String × List Nat)

/-- Atomic replacement of the content at a path (the net effect of the
write-temp-fsync-rename protocol). -/
def fsWrite (fs : FS) (p : String) (data : List Nat) : FS :=
  assocUpdate fs p data

/-- Model of `MemoryDatastore::sync` (memory/datastore.rs:317-326): with no
persistence path, do nothing and return `Ok(())`; with a path, serialize
the whole datastore and atomically replace the file at the path.
Serialization and the rename are modelled from the spec (see above). -/
def MemoryDatastore.sync (md : MemoryDatastore) (fs : FS) : RunResult Unit × FS :=
  match md.path with
  | none => (.ok (), fs)
  | some p => (.ok (), fsWrite fs p (encStore md.datastore))

/-- Model of `MemoryDatastore::read` (memory/datastore.rs:290-298): deserialize the
file at `path`; the result remembers `path`.  Deserialization is modelled
from the spec (see above); `none` stands for an I/O or decode error. -/
def MemoryDatastore.read (p : String) (fs : FS) : Option MemoryDatastore :=
  match assocGet fs p with
  | none => none
  | some data =>
    match decStore data with
    | some (s, []) => some ⟨s, some p⟩
    | _ => none

/- ### C8 — validated identifier constructor -/

/-- C8 (confirmed).  `Type::new(s)` errs with `ValueTooLong` exactly when
`s` exceeds 255 bytes, errs with `InvalidValue` exactly when `s` is within
the size limit but contains a character that is not `-`, `_` or
alphanumeric, and otherwise succeeds, returning the identifier; this holds
for every alphanumeric predicate. -/
theorem type_new_validation_semantics (alnum : Char → Bool) (s : String) :
    (Typ.new alnum s = .error .ValueTooLong ↔ 255 < s.utf8ByteSize)
    ∧ (Typ.new alnum s = .error .InvalidValue ↔
        (s.utf8ByteSize ≤ 255 ∧
          ∃ c ∈ s.data, ¬(c = '-' ∨ c = '_' ∨ alnum c = true)))
    ∧ (Typ.new alnum s = .ok s ↔
        (s.utf8ByteSize ≤ 255 ∧
          ∀ c ∈ s.data, c = '-' ∨ c = '_' ∨ alnum c = true)) := by
  have hall : (s.data.all fun c => decide (c = '-') || decide (c = '_') || alnum c) = true ↔
      ∀ c ∈ s.data, c = '-' ∨ c = '_' ∨ alnum c = true := by
    rw [List.all_eq_true]
    constructor
    · intro h c hc
      have := h c hc
      simp only [Bool.or_eq_true, decide_eq_true_iff] at this
      tauto
    · intro h c hc
      have := h c hc
      simp only [Bool.or_eq_true, decide_eq_true_iff]
      tauto
  unfold Typ.new
  by_cases h1 : 255 < s.utf8ByteSize
  · rw [if_pos h1]
    refine ⟨iff_of_true rfl h1, iff_of_false (by simp) ?_, iff_of_false (by simp) ?_⟩
    · rintro ⟨hle, -⟩
      omega
    · rintro ⟨hle, -⟩
      omega
  · rw [if_neg h1]
    by_cases h2 : (s.data.all fun c => decide (c = '-') || decide (c = '_') || alnum c) = true
    · rw [if_neg (by simp [h2])]
      refine ⟨iff_of_false (by simp) h1, iff_of_false (by simp) ?_,
        iff_of_true rfl ⟨by omega, hall.mp h2⟩⟩
      rintro ⟨-, c, hc, hn⟩
      exact hn (hall.mp h2 c hc)
    · rw [if_pos (by simp [Bool.not_eq_true] at h2 ⊢; exact h2)]
      refine ⟨iff_of_false (by simp) h1, iff_of_true rfl ⟨by omega, ?_⟩,
        iff_of_false (by simp) ?_⟩
      · by_contra hcon
        push_neg at hcon
        exact h2 (hall.mpr hcon)
      · rintro ⟨-, hforall⟩
        exact h2 (hall.mpr hforall)

/- ### C1 — boolean create semantics -/

/-- C1 (counterexample).  In the store `exS3`, the edge `1 -e-> 2` already
exists (with update time 5) and both endpoints exist, yet
`create_edge` returns `true`, not `false` as the claim requires for an
already-existing triple. -/
theorem create_edge_true_on_existing_edge :
    assocGet exS3.edges exEk = some 5
    ∧ (assocGet exS3.vertices exEk.outbound_id).isSome = true
    ∧ (assocGet exS3.vertices exEk.inbound_id).isSome = true
    ∧ (MemoryTransaction.create_edge exS3 exEk 7).1 = true := by
  decide

/-- C1 (amended).  `create_vertex` returns `true` exactly when no vertex
with the same id existed; `create_edge` returns `false` exactly when an
endpoint vertex is absent, and returns `true` otherwise — even when the
same triple already existed (its update time is overwritten).  Both always
return a boolean outcome, never an error. -/
theorem create_boolean_semantics (s : InternalMemoryDatastore) (v : Vertex)
    (k : EdgeKey) (now : Nat) :
    ((MemoryTransaction.create_vertex s v).1 = true ↔ assocGet s.vertices v.id = none)
    ∧ ((MemoryTransaction.create_edge s k now).1 = true ↔
        ((assocGet s.vertices k.outbound_id).isSome = true
          ∧ (assocGet s.vertices k.inbound_id).isSome = true)) := by
  constructor
  · unfold MemoryTransaction.create_vertex
    cases h : assocGet s.vertices v.id <;> simp
  · unfold MemoryTransaction.create_edge
    by_cases h1 : (assocGet s.vertices k.outbound_id).isNone <;>
      by_cases h2 : (assocGet s.vertices k.inbound_id).isNone <;>
        simp_all [Option.isNone_iff_eq_none, Option.isSome_iff_ne_none]

/- ### C2 — set-property does not maintain the value index -/

/-- C2 (code_bug).  After `index_vertex_property("p")` on `exS3` and then
`set_vertex_properties` storing `p := true` on vertex 1, the property
table holds `p = true` for vertex 1 yet both index-backed queries
(`PropertyValue("p", true)` and `PropertyPresence("p")`) return nothing:
the set operation does not maintain the index (the source marks this with
`// TODO: keep index up to date`). -/
theorem indexed_property_set_leaves_index_stale :
    MemoryTransaction.set_vertex_properties exIdx ⟨.Specific [1], "p"⟩ (.bool true)
      = .ok exIdxSet
    ∧ assocGet exIdxSet.vertex_properties (1, "p") = some (.bool true)
    ∧ exIdxSet.get_vertex_values_by_query (.PropertyValue "p" (.bool true)) = .ok []
    ∧ exIdxSet.get_vertex_values_by_query (.PropertyPresence "p") = .ok [] := by
  decide

/- ### C4 — NotIndexed guards -/

/-- C4 (code_bug).  On the empty store, where no property is indexed: the
three implemented vertex predicate arms do return `NotIndexed`, but the
vertex `PipePropertyValue` arm and all four edge property-predicate arms
are `todo!()` and panic instead of returning `NotIndexed`. -/
theorem property_predicate_arms_panic_instead_of_notindexed :
    emptyStore.get_vertex_values_by_query (.PropertyPresence "p") = .err .NotIndexed
    ∧ emptyStore.get_vertex_values_by_query (.PropertyValue "p" .null) = .err .NotIndexed
    ∧ emptyStore.get_vertex_values_by_query
        (.PipePropertyPresence (.Specific []) "p" true) = .err .NotIndexed
    ∧ emptyStore.get_vertex_values_by_query
        (.PipePropertyValue (.Specific []) "p" .null true) = .panics
    ∧ emptyStore.get_edge_values_by_query (.PropertyPresence "p") = .panics
    ∧ emptyStore.get_edge_values_by_query (.PropertyValue "p" .null) = .panics
    ∧ emptyStore.get_edge_values_by_query
        (.PipePropertyPresence (.Specific []) "p" true) = .panics
    ∧ emptyStore.get_edge_values_by_query
        (.PipePropertyValue (.Specific []) "p" .null true) = .panics := by
  decide

/- ### C5 — public methods can panic -/

/-- C5 (code_bug).  Two public transaction methods panic: `get_edges` with
any property-predicate edge query reaches a `todo!()`, and
`get_all_vertex_properties` reaches `next_uuid(id).unwrap()`, which panics
when the store contains a vertex with the maximum UUID. -/
theorem public_methods_can_panic :
    MemoryTransaction.get_edges emptyStore (.PropertyPresence "p") = .panics
    ∧ MemoryTransaction.get_all_vertex_properties exSmax (.Specific [maxUuid]) = .panics := by
  decide

/- ### C6 — JSON null in set_properties is not rejected -/

/-- C6 (counterexample).  Setting property `foo` of vertex 1 to JSON
`null` succeeds (`Ok`, not a `Validation` error) and changes the store:
the property, previously absent, is now stored as `null`. -/
theorem set_properties_null_accepted :
    assocGet exS1.vertex_properties (1, "foo") = none
    ∧ MemoryTransaction.set_vertex_properties exS1 ⟨.Specific [1], "foo"⟩ .null
        = .ok { exS1 with vertex_properties := [((1, "foo"), .null)] }
    ∧ assocGet
        (runStore (MemoryTransaction.set_vertex_properties exS1 ⟨.Specific [1], "foo"⟩ .null)).vertex_properties
        (1, "foo") = some .null := by
  decide

/- ### Generic lemmas about the map model -/

theorem assocGet_mem {K V : Type} [DecidableEq K] {m : List (K × V)} {k : K} {v : V}
    (h : assocGet m k = some v) : (k, v) ∈ m := by
  induction m with
  | nil => simp [assocGet] at h
  | cons p rest ih =>
    unfold assocGet at h
    by_cases hk : p.1 = k
    · rw [if_pos hk] at h
      rcases p with ⟨k0, v0⟩
      simp only [Option.some_inj] at h
      simp_all
    · rw [if_neg hk] at h
      exact List.mem_cons_of_mem _ (ih h)

theorem assocGet_eq_none_iff {K V : Type} [DecidableEq K] {m : List (K × V)} {k : K} :
    assocGet m k = none ↔ ∀ p ∈ m, p.1 ≠ k := by
  induction m with
  | nil => simp [assocGet]
  | cons p rest ih =>
    unfold assocGet
    by_cases hk : p.1 = k
    · simp [hk]
    · simp [hk, ih]

theorem assocGet_filter_none {K V : Type} [DecidableEq K] {m : List (K × V)} {k : K}
    (f : K × V → Bool) (h : assocGet m k = none) : assocGet (m.filter f) k = none := by
  rw [assocGet_eq_none_iff] at h ⊢
  intro p hp
  exact h p (List.mem_of_mem_filter hp)

theorem assocGet_assocRemove_self {K V : Type} [DecidableEq K] (m : List (K × V)) (k : K) :
    assocGet (assocRemove m k) k = none := by
  rw [assocGet_eq_none_iff]
  intro p hp
  unfold assocRemove at hp
  have := (List.mem_filter.mp hp).2
  simpa using this

theorem mem_assocRemove {K V : Type} [DecidableEq K] {m : List (K × V)} {k : K}
    {p : K × V} (h : p ∈ assocRemove m k) : p ∈ m ∧ p.1 ≠ k := by
  unfold assocRemove at h
  have := List.mem_filter.mp h
  exact ⟨this.1, by simpa using this.2⟩

theorem assocGet_removeKeys_none {K V : Type} [DecidableEq K] {m : List (K × V)} {k : K}
    (ks : List K) (h : assocGet m k = none) : assocGet (removeKeys m ks) k = none := by
  induction ks generalizing m with
  | nil => exact h
  | cons a rest ih =>
    exact ih (assocGet_filter_none _ h)

theorem assocGet_removeKeys_of_mem {K V : Type} [DecidableEq K] {m : List (K × V)} {k : K}
    {ks : List K} (h : k ∈ ks) : assocGet (removeKeys m ks) k = none := by
  induction ks generalizing m with
  | nil => cases h
  | cons a rest ih =>
    rcases List.mem_cons.mp h with h' | h'
    · subst h'
      exact assocGet_removeKeys_none rest (assocGet_assocRemove_self m k)
    · exact ih h'

theorem mem_removeKeys {K V : Type} [DecidableEq K] {m : List (K × V)} {ks : List K}
    {p : K × V} (h : p ∈ removeKeys m ks) : p ∈ m ∧ p.1 ∉ ks := by
  induction ks generalizing m with
  | nil => exact ⟨h, by simp⟩
  | cons a rest ih =>
    have h' := ih h
    have h2 := mem_assocRemove h'.1
    refine ⟨h2.1, ?_⟩
    intro hmem
    rcases List.mem_cons.mp hmem with he | he
    · exact h2.2 he
    · exact h'.2 he

theorem assocGet_sortedInsert_self {K V : Type} [DecidableEq K] (ltB : K → K → Bool)
    (m : List (K × V)) (k : K) (v : V) :
    assocGet (sortedInsert ltB m k v) k = some v := by
  induction m with
  | nil => simp [sortedInsert, assocGet]
  | cons p rest ih =>
    rcases p with ⟨k', v'⟩
    unfold sortedInsert
    by_cases h1 : ltB k k'
    · rw [if_pos h1]
      simp [assocGet]
    · rw [if_neg h1]
      by_cases h2 : k = k'
      · rw [if_pos h2]
        simp [assocGet]
      · rw [if_neg h2]
        unfold assocGet
        rw [if_neg (by simpa using fun he => h2 he.symm)]
        exact ih

theorem assocGet_sortedInsert_ne {K V : Type} [DecidableEq K] (ltB : K → K → Bool)
    (m : List (K × V)) (k k' : K) (v : V) (hne : k' ≠ k) :
    assocGet (sortedInsert ltB m k v) k' = assocGet m k' := by
  induction m with
  | nil =>
    unfold sortedInsert assocGet
    rw [if_neg (by simpa using fun he => hne he.symm)]
    rfl
  | cons p rest ih =>
    rcases p with ⟨k0, v0⟩
    unfold sortedInsert
    by_cases h1 : ltB k k0
    · rw [if_pos h1]
      conv_lhs => unfold assocGet
      rw [if_neg (by simpa using fun he => hne he.symm)]
    · rw [if_neg h1]
      by_cases h2 : k = k0
      · rw [if_pos h2]
        unfold assocGet
        rw [if_neg (by simpa using fun he => hne he.symm)]
        rw [if_neg (by simpa using fun he => hne (h2 ▸ he).symm)]
      · rw [if_neg h2]
        unfold assocGet
        by_cases h3 : k0 = k'
        · rw [if_pos (by simpa using h3), if_pos (by simpa using h3)]
        · rw [if_neg (by simpa using h3), if_neg (by simpa using h3)]
          exact ih

theorem assocGet_foldl_insert_ne {K V α : Type} [DecidableEq K] (ltB : K → K → Bool)
    (f : α → K) (v : V) :
    ∀ (l : List α) (m : List (K × V)) (k : K), k ∉ l.map f →
      assocGet (l.foldl (fun m0 a => sortedInsert ltB m0 (f a) v) m) k = assocGet m k := by
  intro l
  induction l with
  | nil => intro m k _; rfl
  | cons a rest ih =>
    intro m k hk
    simp only [List.map_cons, List.mem_cons] at hk
    push_neg at hk
    rw [List.foldl_cons, ih _ k (by simpa using hk.2),
      assocGet_sortedInsert_ne _ _ _ _ _ hk.1]

theorem assocGet_foldl_insert_of_mem {K V α : Type} [DecidableEq K] (ltB : K → K → Bool)
    (f : α → K) (v : V) :
    ∀ (l : List α) (m : List (K × V)) (k : K), k ∈ l.map f →
      assocGet (l.foldl (fun m0 a => sortedInsert ltB m0 (f a) v) m) k = some v := by
  intro l
  induction l with
  | nil => intro m k hk; cases hk
  | cons a rest ih =>
    intro m k hk
    by_cases hr : k ∈ rest.map f
    · exact ih _ k hr
    · have hka : k = f a := by
        simp only [List.map_cons, List.mem_cons] at hk
        tauto
      subst hka
      rw [List.foldl_cons, assocGet_foldl_insert_ne _ _ _ _ _ _ hr,
        assocGet_sortedInsert_self]

/- ### C6 (amended) — set_properties stores JSON null like any value -/

/-- C6 (amended theorem).  For any store and property query whose inner
query evaluates successfully, `set_vertex_properties` /
`set_edge_properties` with the JSON `null` value return `Ok` — `null` is
not rejected with a `Validation` error — and store `null` as the property
value of every matched owner. -/
theorem set_properties_null_stores_value (s : InternalMemoryDatastore)
    (qv : VertexPropertyQuery) (qe : EdgePropertyQuery)
    (lv : List (Uuid × Typ)) (le : List (EdgeKey × Nat))
    (hv : s.get_vertex_values_by_query qv.inner = .ok lv)
    (he : s.get_edge_values_by_query qe.inner = .ok le) :
    (∃ s', MemoryTransaction.set_vertex_properties s qv .null = .ok s'
      ∧ ∀ p ∈ lv, assocGet s'.vertex_properties (p.1, qv.name) = some JsonValue.null)
    ∧ (∃ s', MemoryTransaction.set_edge_properties s qe .null = .ok s'
      ∧ ∀ p ∈ le, assocGet s'.edge_properties (p.1, qe.name) = some JsonValue.null) := by
  constructor
  · refine ⟨_, by unfold MemoryTransaction.set_vertex_properties; rw [hv], ?_⟩
    intro p hp
    exact assocGet_foldl_insert_of_mem vpKeyLtB (fun p => (p.1, qv.name)) _ lv
      s.vertex_properties _ (List.mem_map_of_mem _ hp)
  · refine ⟨_, by unfold MemoryTransaction.set_edge_properties; rw [he], ?_⟩
    intro p hp
    exact assocGet_foldl_insert_of_mem epKeyLtB (fun p => (p.1, qe.name)) _ le
      s.edge_properties _ (List.mem_map_of_mem _ hp)

/-- C6 witness: the amended theorem applied at the concrete store `exS1`
with the single-vertex query and an empty edge query. -/
theorem set_properties_null_stores_value_witness :
    exS1.get_vertex_values_by_query (VertexQuery.Specific [1]) = .ok [(1, "t")]
    ∧ exS1.get_edge_values_by_query (EdgeQuery.Specific []) = .ok []
    ∧ ((∃ s', MemoryTransaction.set_vertex_properties exS1 ⟨.Specific [1], "foo"⟩ .null = .ok s'
          ∧ ∀ p ∈ [((1 : Uuid), ("t" : Typ))],
              assocGet s'.vertex_properties (p.1, "foo") = some JsonValue.null)
        ∧ (∃ s', MemoryTransaction.set_edge_properties exS1 ⟨.Specific [], "bar"⟩ .null = .ok s'
          ∧ ∀ p ∈ ([] : List (EdgeKey × Nat)),
              assocGet s'.edge_properties (p.1, "bar") = some JsonValue.null)) :=
  ⟨by decide, by decide,
    set_properties_null_stores_value exS1 ⟨.Specific [1], "foo"⟩ ⟨.Specific [], "bar"⟩
      [(1, "t")] [] (by decide) (by decide)⟩

/- ### Sorted-list range lemmas -/

theorem dropWhile_eq_filter_of_sorted {α : Type} (q : α → Bool) (R : α → α → Prop) :
    ∀ l : List α, l.Pairwise R →
      (∀ a b, a ∈ l → b ∈ l → R a b → q b = true → q a = true) →
      l.dropWhile q = l.filter (fun a => !q a) := by
  intro l
  induction l with
  | nil => intro _ _; rfl
  | cons x xs ih =>
    intro hpw hmono
    rw [List.pairwise_cons] at hpw
    by_cases hx : q x = true
    · rw [List.dropWhile_cons_of_pos hx, List.filter_cons_of_neg (by simp [hx])]
      exact ih hpw.2 fun a b ha hb hr hq =>
        hmono a b (List.mem_cons_of_mem _ ha) (List.mem_cons_of_mem _ hb) hr hq
    · have hx' : q x = false := by simpa using hx
      rw [List.dropWhile_cons_of_neg (by simp [hx']), List.filter_cons_of_pos (by simp [hx'])]
      have : List.filter (fun a => !q a) xs = xs := by
        rw [List.filter_eq_self]
        intro b hb
        by_cases hq : q b = true
        · have := hmono x b (List.mem_cons_self x xs) (List.mem_cons_of_mem _ hb) (hpw.1 b hb) hq
          simp [this] at hx'
        · simp [hq]
      rw [this]

theorem takeWhile_eq_filter_of_sorted {α : Type} (p : α → Bool) (R : α → α → Prop) :
    ∀ l : List α, l.Pairwise R →
      (∀ a b, a ∈ l → b ∈ l → R a b → p b = true → p a = true) →
      l.takeWhile p = l.filter p := by
  intro l
  induction l with
  | nil => intro _ _; rfl
  | cons x xs ih =>
    intro hpw hmono
    rw [List.pairwise_cons] at hpw
    by_cases hx : p x = true
    · rw [List.takeWhile_cons_of_pos hx, List.filter_cons_of_pos hx]
      rw [ih hpw.2 fun a b ha hb hr hq =>
        hmono a b (List.mem_cons_of_mem _ ha) (List.mem_cons_of_mem _ hb) hr hq]
    · have hx' : p x = false := by simpa using hx
      rw [List.takeWhile_cons_of_neg (by simp [hx']), List.filter_cons_of_neg (by simp [hx'])]
      have : List.filter p xs = [] := by
        rw [List.filter_eq_nil_iff]
        intro b hb hq
        have := hmono x b (List.mem_cons_self x xs) (List.mem_cons_of_mem _ hb) (hpw.1 b hb) hq
        simp [this] at hx'
      rw [this]

theorem dropWhile_pred_false_of_sorted {α : Type} (q : α → Bool) (R : α → α → Prop)
    (l : List α) (hpw : l.Pairwise R)
    (hmono : ∀ a b, a ∈ l → b ∈ l → R a b → q b = true → q a = true) :
    ∀ x ∈ l.dropWhile q, q x = false := by
  intro x hx
  rw [dropWhile_eq_filter_of_sorted q R l hpw hmono] at hx
  simpa using (List.mem_filter.mp hx).2

/- ### C7 — RangeVertex semantics -/

/-- C7 (confirmed).  On a store whose vertex table is sorted by id (the
`BTreeMap` invariant), a `Range` vertex query returns exactly the vertices
with id ≥ `start_id` (all of them when `start_id` is absent), filtered to
the requested type, truncated to `limit` after the type filter, and the
output is in strictly ascending id order. -/
theorem range_vertex_query_semantics (s : InternalMemoryDatastore)
    (hs : s.vertices.Pairwise fun a b => uuidLtB a.1 b.1 = true)
    (start_id : Option Uuid) (t : Option Typ) (limit : Nat) :
    s.get_vertex_values_by_query (.Range start_id t limit)
      = .ok (rangeVertexSpec s start_id t limit)
    ∧ (rangeVertexSpec s start_id t limit).Pairwise (fun a b => a.1 < b.1) := by
  have hmono : ∀ (sid : Uuid) (a b : Uuid × Typ), a ∈ s.vertices → b ∈ s.vertices →
      (uuidLtB a.1 b.1 = true) → uuidLtB b.1 sid = true → uuidLtB a.1 sid = true := by
    intro sid a b _ _ hr hq
    simp only [uuidLtB, decide_eq_true_eq] at hr hq ⊢
    exact Nat.lt_trans hr hq
  have hdrop : ∀ sid : Uuid, List.dropWhile (fun p => uuidLtB p.1 sid) s.vertices
      = s.vertices.filter (fun p => decide (sid ≤ p.1)) := by
    intro sid
    rw [dropWhile_eq_filter_of_sorted (fun p : Uuid × Typ => uuidLtB p.1 sid)
      (fun a b : Uuid × Typ => uuidLtB a.1 b.1 = true) _ hs (hmono sid)]
    apply List.filter_congr
    intro p _
    by_cases h : sid ≤ p.1
    · simp [uuidLtB, h, Nat.not_lt.mpr h]
    · simp [uuidLtB, h, Nat.lt_of_not_le h]
  constructor
  · unfold InternalMemoryDatastore.get_vertex_values_by_query rangeVertexSpec
    cases start_id with
    | none =>
      cases t with
      | none => simp
      | some ty => simp
    | some sid =>
      cases t with
      | none => simp [rangeFrom, hdrop sid]
      | some ty => simp [rangeFrom, hdrop sid]
  · have hsub : List.Sublist (rangeVertexSpec s start_id t limit) s.vertices := by
      unfold rangeVertexSpec
      exact (List.take_sublist _ _).trans
        ((List.filter_sublist _).trans (List.filter_sublist _))
    exact (hs.sublist hsub).imp fun h => by
      simpa [uuidLtB, decide_eq_true_iff] using h

/-- C7 witness: the theorem applied at the concrete sorted store `exS3`
with the query `Range (start_id := 2, t := none, limit := 10)`. -/
theorem range_vertex_query_semantics_witness :
    (exS3.vertices.Pairwise fun a b => uuidLtB a.1 b.1 = true)
    ∧ (exS3.get_vertex_values_by_query (.Range (some 2) none 10)
        = .ok (rangeVertexSpec exS3 (some 2) none 10)
      ∧ (rangeVertexSpec exS3 (some 2) none 10).Pairwise (fun a b => a.1 < b.1)) :=
  ⟨by decide, range_vertex_query_semantics exS3 (by decide) (some 2) none 10⟩

/- ### Order facts for the table keys -/

theorem listCharLtB_nil_right (l : List Char) : listCharLtB l [] = false := by
  cases l <;> rfl

theorem strLtB_empty (s : String) : strLtB s "" = false := by
  unfold strLtB
  exact listCharLtB_nil_right s.data

theorem listCharLtB_trans :
    ∀ a b c : List Char, listCharLtB a b = true → listCharLtB b c = true →
      listCharLtB a c = true := by
  intro a
  induction a with
  | nil =>
    intro b c hab hbc
    cases b with
    | nil => cases c <;> simp_all [listCharLtB]
    | cons bh bt =>
      cases c with
      | nil => simp [listCharLtB_nil_right] at hbc
      | cons ch ct => rfl
  | cons ah at' ih =>
    intro b c hab hbc
    cases b with
    | nil => simp [listCharLtB_nil_right] at hab
    | cons bh bt =>
      cases c with
      | nil => simp [listCharLtB_nil_right] at hbc
      | cons ch ct =>
        simp only [listCharLtB, Bool.or_eq_true, Bool.and_eq_true,
          decide_eq_true_eq] at hab hbc ⊢
        rcases hab with h1 | ⟨he1, h1⟩
        · rcases hbc with h2 | ⟨he2, h2⟩
          · exact Or.inl (Nat.lt_trans h1 h2)
          · subst he2
            exact Or.inl h1
        · subst he1
          rcases hbc with h2 | ⟨he2, h2⟩
          · exact Or.inl h2
          · subst he2
            exact Or.inr ⟨rfl, ih _ _ h1 h2⟩

theorem strLtB_trans {a b c : String} (h1 : strLtB a b = true) (h2 : strLtB b c = true) :
    strLtB a c = true :=
  listCharLtB_trans a.data b.data c.data h1 h2

theorem vpKeyLtB_trans {a b c : Uuid × PropName}
    (h1 : vpKeyLtB a b = true) (h2 : vpKeyLtB b c = true) : vpKeyLtB a c = true := by
  simp only [vpKeyLtB, Bool.or_eq_true, Bool.and_eq_true, decide_eq_true_eq] at h1 h2 ⊢
  rcases h1 with h1 | ⟨he1, h1⟩
  · rcases h2 with h2 | ⟨he2, h2⟩
    · exact Or.inl (Nat.lt_trans h1 h2)
    · exact Or.inl (he2 ▸ h1)
  · rcases h2 with h2 | ⟨he2, h2⟩
    · exact Or.inl (he1 ▸ h2)
    · exact Or.inr ⟨he1.trans he2, strLtB_trans h1 h2⟩

theorem edgeKeyLtB_trans {a b c : EdgeKey}
    (h1 : edgeKeyLtB a b = true) (h2 : edgeKeyLtB b c = true) : edgeKeyLtB a c = true := by
  simp only [edgeKeyLtB, Bool.or_eq_true, Bool.and_eq_true, decide_eq_true_eq] at h1 h2 ⊢
  rcases h1 with h1 | ⟨he1, h1 | ⟨hf1, h1⟩⟩ <;>
    rcases h2 with h2 | ⟨he2, h2 | ⟨hf2, h2⟩⟩
  · exact Or.inl (Nat.lt_trans h1 h2)
  · exact Or.inl (he2 ▸ h1)
  · exact Or.inl (he2 ▸ h1)
  · exact Or.inl (he1 ▸ h2)
  · exact Or.inr ⟨he1.trans he2, Or.inl (strLtB_trans h1 h2)⟩
  · exact Or.inr ⟨he1.trans he2, Or.inl (hf2 ▸ h1)⟩
  · exact Or.inl (he1 ▸ h2)
  · exact Or.inr ⟨he1.trans he2, Or.inl (hf1 ▸ h2)⟩
  · exact Or.inr ⟨he1.trans he2, Or.inr ⟨hf1.trans hf2, Nat.lt_trans h1 h2⟩⟩

theorem epKeyLtB_trans {a b c : EdgeKey × PropName}
    (h1 : epKeyLtB a b = true) (h2 : epKeyLtB b c = true) : epKeyLtB a c = true := by
  simp only [epKeyLtB, Bool.or_eq_true, Bool.and_eq_true, decide_eq_true_eq] at h1 h2 ⊢
  rcases h1 with h1 | ⟨he1, h1⟩
  · rcases h2 with h2 | ⟨he2, h2⟩
    · exact Or.inl (edgeKeyLtB_trans h1 h2)
    · exact Or.inl (he2 ▸ h1)
  · rcases h2 with h2 | ⟨he2, h2⟩
    · exact Or.inl (he1 ▸ h2)
    · exact Or.inr ⟨he1.trans he2, strLtB_trans h1 h2⟩

theorem listCharLtB_irrefl (l : List Char) : listCharLtB l l = false := by
  induction l with
  | nil => rfl
  | cons a t ih => simp [listCharLtB, ih]

theorem strLtB_irrefl (s : String) : strLtB s s = false :=
  listCharLtB_irrefl s.data

theorem edgeKeyLtB_irrefl (k : EdgeKey) : edgeKeyLtB k k = false := by
  simp [edgeKeyLtB, strLtB_irrefl]

theorem vpKeyLtB_lb_of_eq (k : Uuid × PropName) (v : Uuid) (h : k.1 = v) :
    vpKeyLtB k (v, "") = false := by
  simp [vpKeyLtB, h, strLtB_empty]

theorem epKeyLtB_lb_of_eq (k : EdgeKey × PropName) (ek : EdgeKey) (h : k.1 = ek) :
    epKeyLtB k (ek, "") = false := by
  simp [epKeyLtB, h, strLtB_empty, edgeKeyLtB_irrefl]

theorem vpKeyLtB_cases {a b : Uuid × PropName} (h : vpKeyLtB a b = true) :
    a.1 < b.1 ∨ a.1 = b.1 := by
  simp only [vpKeyLtB, Bool.or_eq_true, Bool.and_eq_true, decide_eq_true_eq] at h
  tauto

theorem vpKeyLtB_of_fst_lt {a : Uuid × PropName} {v : Uuid} (h : a.1 < v) :
    vpKeyLtB a (v, "") = true := by
  simp [vpKeyLtB, h]

theorem epKeyLtB_cases {a b : EdgeKey × PropName} (h : epKeyLtB a b = true) :
    edgeKeyLtB a.1 b.1 = true ∨ a.1 = b.1 := by
  simp only [epKeyLtB, Bool.or_eq_true, Bool.and_eq_true, decide_eq_true_eq] at h
  tauto

theorem epKeyLtB_lb_eval (k : EdgeKey × PropName) (ek : EdgeKey) :
    epKeyLtB k (ek, "") = edgeKeyLtB k.1 ek := by
  simp [epKeyLtB, strLtB_empty]

/- ### The deletion loops collect exactly the owned property keys -/

theorem deletableVertexProperties_eq (s : InternalMemoryDatastore)
    (hvp : s.vertex_properties.Pairwise (fun a b => vpKeyLtB a.1 b.1 = true)) (v : Uuid) :
    deletableVertexProperties s v
      = (s.vertex_properties.filter fun p => decide (p.1.1 = v)).map (fun p => p.1) := by
  unfold deletableVertexProperties rangeFrom
  have hq : ∀ a b : (Uuid × PropName) × JsonValue,
      a ∈ s.vertex_properties → b ∈ s.vertex_properties →
      vpKeyLtB a.1 b.1 = true → vpKeyLtB b.1 (v, "") = true →
      vpKeyLtB a.1 (v, "") = true :=
    fun a b _ _ hr hqb => vpKeyLtB_trans hr hqb
  have hds := dropWhile_eq_filter_of_sorted
    (fun p : (Uuid × PropName) × JsonValue => vpKeyLtB p.1 (v, ""))
    (fun a b => vpKeyLtB a.1 b.1 = true) _ hvp hq
  have hfalse := dropWhile_pred_false_of_sorted
    (fun p : (Uuid × PropName) × JsonValue => vpKeyLtB p.1 (v, ""))
    (fun a b => vpKeyLtB a.1 b.1 = true) _ hvp hq
  have hsorted' := hvp.sublist (List.dropWhile_sublist
    (fun p : (Uuid × PropName) × JsonValue => vpKeyLtB p.1 (v, "")))
  rw [takeWhile_eq_filter_of_sorted
    (fun p : (Uuid × PropName) × JsonValue => decide (p.1.1 = v))
    (fun a b => vpKeyLtB a.1 b.1 = true) _ hsorted' ?_]
  · rw [hds, List.filter_filter]
    congr 1
    apply List.filter_congr
    intro p _
    by_cases hf : p.1.1 = v
    · simp [hf, vpKeyLtB_lb_of_eq p.1 v hf]
    · simp [hf]
  · intro a b ha hb hr hfb
    have hfa := hfalse a ha
    simp only [decide_eq_true_eq] at hfb ⊢
    have hfa' : vpKeyLtB a.1 (v, "") = false := hfa
    rcases vpKeyLtB_cases hr with hlt | heq
    · rw [hfb] at hlt
      rw [vpKeyLtB_of_fst_lt hlt] at hfa'
      cases hfa'
    · rw [heq, hfb]

theorem deletableEdgeProperties_eq (s : InternalMemoryDatastore)
    (hep : s.edge_properties.Pairwise (fun a b => epKeyLtB a.1 b.1 = true)) (ek : EdgeKey) :
    deletableEdgeProperties s ek
      = (s.edge_properties.filter fun p => decide (p.1.1 = ek)).map (fun p => p.1) := by
  unfold deletableEdgeProperties rangeFrom
  have hq : ∀ a b : (EdgeKey × PropName) × JsonValue,
      a ∈ s.edge_properties → b ∈ s.edge_properties →
      epKeyLtB a.1 b.1 = true → epKeyLtB b.1 (ek, "") = true →
      epKeyLtB a.1 (ek, "") = true :=
    fun a b _ _ hr hqb => epKeyLtB_trans hr hqb
  have hds := dropWhile_eq_filter_of_sorted
    (fun p : (EdgeKey × PropName) × JsonValue => epKeyLtB p.1 (ek, ""))
    (fun a b => epKeyLtB a.1 b.1 = true) _ hep hq
  have hfalse := dropWhile_pred_false_of_sorted
    (fun p : (EdgeKey × PropName) × JsonValue => epKeyLtB p.1 (ek, ""))
    (fun a b => epKeyLtB a.1 b.1 = true) _ hep hq
  have hsorted' := hep.sublist (List.dropWhile_sublist
    (fun p : (EdgeKey × PropName) × JsonValue => epKeyLtB p.1 (ek, "")))
  rw [takeWhile_eq_filter_of_sorted
    (fun p : (EdgeKey × PropName) × JsonValue => decide (p.1.1 = ek))
    (fun a b => epKeyLtB a.1 b.1 = true) _ hsorted' ?_]
  · rw [hds, List.filter_filter]
    congr 1
    apply List.filter_congr
    intro p _
    by_cases hf : p.1.1 = ek
    · simp [hf, epKeyLtB_lb_of_eq p.1 ek hf]
    · simp [hf]
  · intro a b ha hb hr hfb
    have hfa := hfalse a ha
    simp only [decide_eq_true_eq] at hfb ⊢
    have hfa' : epKeyLtB a.1 (ek, "") = false := hfa
    rcases epKeyLtB_cases hr with hlt | heq
    · rw [hfb] at hlt
      rw [epKeyLtB_lb_eval, hlt] at hfa'
      cases hfa'
    · rw [heq, hfb]

/- ### Field tracking through the deletion folds -/

theorem removeKeys_sublist {K V : Type} [DecidableEq K] (ks : List K) (m : List (K × V)) :
    List.Sublist (removeKeys m ks) m := by
  induction ks generalizing m with
  | nil => exact List.Sublist.refl m
  | cons a rest ih =>
    exact (ih (assocRemove m a)).trans (List.filter_sublist m)

theorem delete_edges_fields (eks : List EdgeKey) (s : InternalMemoryDatastore) :
    (s.delete_edges eks).vertices = s.vertices
    ∧ (s.delete_edges eks).edges = removeKeys s.edges eks
    ∧ (s.delete_edges eks).reversed_edges
        = removeKeys s.reversed_edges (eks.map EdgeKey.reversed)
    ∧ (s.delete_edges eks).vertex_properties = s.vertex_properties
    ∧ (s.delete_edges eks).vertex_property_values = s.vertex_property_values
    ∧ (s.delete_edges eks).edge_property_values = s.edge_property_values := by
  induction eks generalizing s with
  | nil => exact ⟨rfl, rfl, rfl, rfl, rfl, rfl⟩
  | cons ek rest ih =>
    have h := ih (deleteEdgeStep s ek)
    unfold InternalMemoryDatastore.delete_edges at h ⊢
    rw [List.foldl_cons]
    refine ⟨h.1, ?_, ?_, h.2.2.2.1, h.2.2.2.2.1, h.2.2.2.2.2⟩
    · rw [h.2.1]
      rfl
    · rw [h.2.2.1]
      rfl

theorem delete_edges_props_sorted (eks : List EdgeKey) (s : InternalMemoryDatastore)
    (hep : s.edge_properties.Pairwise (fun a b => epKeyLtB a.1 b.1 = true)) :
    (s.delete_edges eks).edge_properties.Pairwise (fun a b => epKeyLtB a.1 b.1 = true) := by
  induction eks generalizing s with
  | nil => exact hep
  | cons ek rest ih =>
    unfold InternalMemoryDatastore.delete_edges
    rw [List.foldl_cons]
    exact ih (deleteEdgeStep s ek)
      (hep.sublist (removeKeys_sublist _ s.edge_properties))

theorem deleteEdgeStep_props_none (s : InternalMemoryDatastore) (ek : EdgeKey)
    (hep : s.edge_properties.Pairwise (fun a b => epKeyLtB a.1 b.1 = true))
    (name : PropName) :
    assocGet (deleteEdgeStep s ek).edge_properties (ek, name) = none := by
  show assocGet (removeKeys s.edge_properties (deletableEdgeProperties s ek)) (ek, name) = none
  cases hg : assocGet s.edge_properties (ek, name) with
  | none => exact assocGet_removeKeys_none _ hg
  | some val =>
    apply assocGet_removeKeys_of_mem
    rw [deletableEdgeProperties_eq s hep ek]
    exact List.mem_map_of_mem _ (List.mem_filter.mpr ⟨assocGet_mem hg, by simp⟩)

theorem delete_edges_props_none_preserved (eks : List EdgeKey)
    (s : InternalMemoryDatastore) (k : EdgeKey × PropName)
    (h : assocGet s.edge_properties k = none) :
    assocGet (s.delete_edges eks).edge_properties k = none := by
  induction eks generalizing s with
  | nil => exact h
  | cons ek rest ih =>
    unfold InternalMemoryDatastore.delete_edges
    rw [List.foldl_cons]
    exact ih (deleteEdgeStep s ek) (assocGet_removeKeys_none _ h)

theorem delete_edges_props_none (eks : List EdgeKey) (s : InternalMemoryDatastore)
    (hep : s.edge_properties.Pairwise (fun a b => epKeyLtB a.1 b.1 = true))
    (ek : EdgeKey) (hmem : ek ∈ eks) (name : PropName) :
    assocGet (s.delete_edges eks).edge_properties (ek, name) = none := by
  induction eks generalizing s with
  | nil => cases hmem
  | cons a rest ih =>
    unfold InternalMemoryDatastore.delete_edges
    rw [List.foldl_cons]
    rcases List.mem_cons.mp hmem with he | he
    · subst he
      exact delete_edges_props_none_preserved rest _ _
        (deleteEdgeStep_props_none s ek hep name)
    · exact ih (deleteEdgeStep s a)
        (hep.sublist (removeKeys_sublist _ s.edge_properties)) he

/- ### Query outputs only contain stored entries -/

theorem mem_of_filterMap_get {K V : Type} [DecidableEq K] {ids : List K}
    {m : List (K × V)} {p : K × V}
    (h : p ∈ ids.filterMap (fun id => (assocGet m id).map (fun v => (id, v)))) : p ∈ m := by
  rcases List.mem_filterMap.mp h with ⟨id, -, hm⟩
  rcases Option.map_eq_some'.mp hm with ⟨v, hget, hp⟩
  exact hp ▸ assocGet_mem hget

theorem mem_segment {table : List (EdgeKey × Nat)} {lb : EdgeKey} {idv : Uuid}
    {x : EdgeKey × Nat}
    (h : x ∈ (rangeFrom edgeKeyLtB table lb).takeWhile
      (fun q => decide (q.1.outbound_id = idv))) : x ∈ table :=
  ((List.takeWhile_sublist _).trans (List.dropWhile_sublist _)).subset h

theorem EdgeKey.reversed_reversed (k : EdgeKey) : k.reversed.reversed = k := rfl

/-- The `Pipe` arm of `get_edge_values_by_query`, restated through
`pipeChain`; equal to the source body by unfolding. -/
theorem gev_Pipe_eq (s : InternalMemoryDatastore) (inner : VertexQuery)
    (direction : EdgeDirection) (t : Option Typ) (high low : Option Nat) (limit : Nat) :
    s.get_edge_values_by_query (.Pipe inner direction t high low limit)
      = match s.get_vertex_values_by_query inner with
        | .err e => .err e
        | .panics => .panics
        | .ok vertex_values =>
          let table := match direction with
            | .Outbound => s.edges
            | .Inbound => s.reversed_edges
          let chain := pipeChain table
            (fun p => match t with
              | some ty => ⟨p.1, ty, 0⟩
              | none => ⟨p.1, "", 0⟩) vertex_values t high low limit
          match direction with
          | .Outbound => .ok chain
          | .Inbound => .ok (chain.map (fun q => (q.1.reversed, q.2))) := rfl

theorem mem_flatten_segments (table : List (EdgeKey × Nat)) (lbf : Uuid × Typ → EdgeKey)
    {vertex_values : List (Uuid × Typ)} {x : EdgeKey × Nat}
    (h : x ∈ (vertex_values.map (fun v =>
      (rangeFrom edgeKeyLtB table (lbf v)).takeWhile
        (fun q => decide (q.1.outbound_id = v.1)))).flatten) :
    x ∈ table := by
  rcases List.mem_flatten.mp h with ⟨seg, hseg, hxseg⟩
  rcases List.mem_map.mp hseg with ⟨vv, -, hvv⟩
  exact mem_segment (hvv ▸ hxseg)

theorem pipe_iter_mem {table : List (EdgeKey × Nat)} {lbf : Uuid × Typ → EdgeKey}
    {vertex_values : List (Uuid × Typ)} {t : Option Typ} {high low : Option Nat}
    {limit : Nat} {p : EdgeKey × Nat}
    (hp : p ∈ pipeChain table lbf vertex_values t high low limit) : p ∈ table := by
  unfold pipeChain at hp
  have h1 := List.mem_of_mem_take hp
  clear hp
  cases low <;> cases high <;> cases t <;>
    (repeat replace h1 := List.mem_of_mem_filter h1) <;>
    exact mem_flatten_segments table lbf h1

/-- The `Specific` arm of `get_edge_values_by_query`. -/
theorem gev_Specific_eq (s : InternalMemoryDatastore) (keys : List EdgeKey) :
    s.get_edge_values_by_query (.Specific keys)
      = .ok (keys.filterMap (fun key => (assocGet s.edges key).map (fun dt => (key, dt)))) := rfl

mutual

theorem mem_get_vertex_values (s : InternalMemoryDatastore) (q : VertexQuery)
    (l : List (Uuid × Typ)) (h : s.get_vertex_values_by_query q = .ok l) :
    ∀ p ∈ l, p ∈ s.vertices := by
  cases q with
  | Range start_id t limit =>
    unfold InternalMemoryDatastore.get_vertex_values_by_query at h
    simp only [RunResult.ok.injEq] at h
    subst h
    intro p hp
    have h1 := List.mem_of_mem_take hp
    clear hp
    cases start_id <;> cases t <;>
      (repeat replace h1 := List.mem_of_mem_filter h1) <;>
      first
        | exact h1
        | exact (List.dropWhile_sublist _).subset h1
  | Specific ids =>
    unfold InternalMemoryDatastore.get_vertex_values_by_query at h
    simp only [RunResult.ok.injEq] at h
    subst h
    intro p hp
    exact mem_of_filterMap_get hp
  | Pipe inner direction t limit =>
    unfold InternalMemoryDatastore.get_vertex_values_by_query at h
    split at h
    · exact RunResult.noConfusion h
    · exact RunResult.noConfusion h
    · simp only [RunResult.ok.injEq] at h
      subst h
      intro p hp
      have h1 := List.mem_of_mem_take hp
      clear hp
      cases t <;>
        (repeat replace h1 := List.mem_of_mem_filter h1) <;>
        exact mem_of_filterMap_get h1
  | PropertyPresence name =>
    unfold InternalMemoryDatastore.get_vertex_values_by_query at h
    split at h
    · exact RunResult.noConfusion h
    · simp only [RunResult.ok.injEq] at h
      subst h
      intro p hp
      exact mem_of_filterMap_get hp
  | PropertyValue name value =>
    unfold InternalMemoryDatastore.get_vertex_values_by_query at h
    split at h
    · exact RunResult.noConfusion h
    · split at h
      · simp only [RunResult.ok.injEq] at h
        subst h
        intro p hp
        exact mem_of_filterMap_get hp
      · simp only [RunResult.ok.injEq] at h
        subst h
        intro p hp
        cases hp
  | PipePropertyPresence inner name exists_b =>
    unfold InternalMemoryDatastore.get_vertex_values_by_query at h
    split at h
    · exact RunResult.noConfusion h
    · split at h
      · exact RunResult.noConfusion h
      · split at h
        · exact RunResult.noConfusion h
        · exact RunResult.noConfusion h
        · rename_i vertex_values hrec
          have hmem := mem_get_vertex_values s inner vertex_values hrec
          split at h
          · simp only [RunResult.ok.injEq] at h
            subst h
            intro p hp
            exact hmem p (List.mem_of_mem_filter hp)
          · simp only [RunResult.ok.injEq] at h
            subst h
            intro p hp
            exact hmem p (List.mem_of_mem_filter hp)
  | PipePropertyValue inner name value equal =>
    unfold InternalMemoryDatastore.get_vertex_values_by_query at h
    exact RunResult.noConfusion h

theorem mem_get_edge_values (s : InternalMemoryDatastore) (q : EdgeQuery)
    (l : List (EdgeKey × Nat)) (h : s.get_edge_values_by_query q = .ok l) :
    ∀ p ∈ l, p ∈ s.edges ∨ (p.1.reversed, p.2) ∈ s.reversed_edges := by
  cases q with
  | Specific keys =>
    rw [gev_Specific_eq] at h
    simp only [RunResult.ok.injEq] at h
    subst h
    intro p hp
    exact Or.inl (mem_of_filterMap_get hp)
  | Pipe inner direction t high low limit =>
    rw [gev_Pipe_eq] at h
    split at h
    · exact RunResult.noConfusion h
    · exact RunResult.noConfusion h
    · rename_i vertex_values hrec
      generalize (fun p : Uuid × Typ => match t with
        | some ty => (⟨p.1, ty, 0⟩ : EdgeKey)
        | none => ⟨p.1, "", 0⟩) = lbf at h
      cases direction with
      | Outbound =>
        replace h : RunResult.ok (pipeChain s.edges lbf vertex_values t high low limit)
            = RunResult.ok l := h
        simp only [RunResult.ok.injEq] at h
        subst h
        intro p hp
        exact Or.inl (pipe_iter_mem hp)
      | Inbound =>
        replace h : RunResult.ok
            ((pipeChain s.reversed_edges lbf vertex_values t high low limit).map
              (fun q => (q.1.reversed, q.2))) = RunResult.ok l := h
        simp only [RunResult.ok.injEq] at h
        subst h
        intro p hp
        rcases List.mem_map.mp hp with ⟨x, hx, hxp⟩
        refine Or.inr ?_
        have hxr : x ∈ s.reversed_edges := pipe_iter_mem hx
        have hpx : (p.1.reversed, p.2) = x := by
          rw [← hxp]
          exact congrArg (fun y => (y, x.2)) (EdgeKey.reversed_reversed x.1)
        rw [hpx]
        exact hxr
  | PropertyPresence name =>
    exact RunResult.noConfusion h
  | PropertyValue name value =>
    exact RunResult.noConfusion h
  | PipePropertyPresence inner name exists_b =>
    exact RunResult.noConfusion h
  | PipePropertyValue inner name value equal =>
    exact RunResult.noConfusion h

end

/- ### C3 — deletion cascades -/

/-- C3 (confirmed).  On a store satisfying the representation invariants
(sorted property tables, reversed-edge table mirroring the forward table,
edge properties owned by existing edges), deleting vertex `v` removes `v`,
every edge incident to `v` from both edge tables, every property of `v`,
and every property of any incident edge; afterwards no vertex query output
mentions `v` and no edge query output mentions an incident edge.  Deleting
a single edge removes it from both edge tables together with all its
properties. -/
theorem delete_vertex_and_edge_cascade (s : InternalMemoryDatastore) (v : Uuid)
    (ek0 : EdgeKey)
    (hvp : s.vertex_properties.Pairwise (fun a b => vpKeyLtB a.1 b.1 = true))
    (hep : s.edge_properties.Pairwise (fun a b => epKeyLtB a.1 b.1 = true))
    (hmirror : ∀ p ∈ s.reversed_edges, p.1.reversed ∈ s.edges.map (fun q => q.1))
    (hprops : ∀ p ∈ s.edge_properties, p.1.1 ∈ s.edges.map (fun q => q.1)) :
    (assocGet (s.delete_vertices [v]).vertices v = none
     ∧ (∀ ek : EdgeKey, ek.outbound_id = v ∨ ek.inbound_id = v →
         assocGet (s.delete_vertices [v]).edges ek = none
         ∧ assocGet (s.delete_vertices [v]).reversed_edges ek.reversed = none)
     ∧ (∀ name : PropName, assocGet (s.delete_vertices [v]).vertex_properties (v, name) = none)
     ∧ (∀ (ek : EdgeKey) (name : PropName), ek.outbound_id = v ∨ ek.inbound_id = v →
         assocGet (s.delete_vertices [v]).edge_properties (ek, name) = none)
     ∧ (∀ (q : VertexQuery) (l : List (Uuid × Typ)),
         (s.delete_vertices [v]).get_vertex_values_by_query q = .ok l →
           ∀ p ∈ l, p.1 ≠ v)
     ∧ (∀ (q : EdgeQuery) (l : List (EdgeKey × Nat)),
         (s.delete_vertices [v]).get_edge_values_by_query q = .ok l →
           ∀ p ∈ l, ¬(p.1.outbound_id = v ∨ p.1.inbound_id = v)))
    ∧ (assocGet (s.delete_edges [ek0]).edges ek0 = none
       ∧ assocGet (s.delete_edges [ek0]).reversed_edges ek0.reversed = none
       ∧ ∀ name : PropName, assocGet (s.delete_edges [ek0]).edge_properties (ek0, name) = none) := by
  constructor
  · have hsv : s.delete_vertices [v]
        = (afterVertexRemoval s v).delete_edges (incidentEdgeKeys s v) := rfl
    rw [hsv]
    obtain ⟨hV, hE, hR, hVP, -, -⟩ :=
      delete_edges_fields (incidentEdgeKeys s v) (afterVertexRemoval s v)
    have hmem_deletable : ∀ ek : EdgeKey, (ek.outbound_id = v ∨ ek.inbound_id = v) →
        ek ∈ s.edges.map (fun q => q.1) → ek ∈ incidentEdgeKeys s v := by
      intro ek hinc hmem
      refine List.mem_filter.mpr ⟨hmem, ?_⟩
      rcases hinc with h | h <;> simp [h]
    refine ⟨?_, ?_, ?_, ?_, ?_, ?_⟩
    · rw [hV]
      exact assocGet_assocRemove_self s.vertices v
    · intro ek hinc
      constructor
      · rw [hE]
        cases hg : assocGet s.edges ek with
        | none => exact assocGet_removeKeys_none _ hg
        | some val =>
          exact assocGet_removeKeys_of_mem
            (hmem_deletable ek hinc (List.mem_map_of_mem _ (assocGet_mem hg)))
      · rw [hR]
        cases hg : assocGet s.reversed_edges ek.reversed with
        | none => exact assocGet_removeKeys_none _ hg
        | some val =>
          have hm := hmirror _ (assocGet_mem hg)
          have hrr : EdgeKey.reversed (EdgeKey.reversed ek) = ek := EdgeKey.reversed_reversed ek
          rw [hrr] at hm
          exact assocGet_removeKeys_of_mem
            (List.mem_map_of_mem EdgeKey.reversed (hmem_deletable ek hinc hm))
    · intro name
      rw [hVP]
      show assocGet (removeKeys s.vertex_properties
        (deletableVertexProperties
          { s with vertices := assocRemove s.vertices v } v)) (v, name) = none
      cases hg : assocGet s.vertex_properties (v, name) with
      | none => exact assocGet_removeKeys_none _ hg
      | some val =>
        apply assocGet_removeKeys_of_mem
        rw [deletableVertexProperties_eq { s with vertices := assocRemove s.vertices v } hvp v]
        exact List.mem_map_of_mem _ (List.mem_filter.mpr ⟨assocGet_mem hg, by simp⟩)
    · intro ek name hinc
      by_cases hek : ek ∈ s.edges.map (fun q => q.1)
      · exact delete_edges_props_none (incidentEdgeKeys s v) (afterVertexRemoval s v)
          hep ek (hmem_deletable ek hinc hek) name
      · have hnone : assocGet s.edge_properties (ek, name) = none := by
          rw [assocGet_eq_none_iff]
          intro p hp hkey
          have hin := hprops p hp
          rw [hkey] at hin
          exact hek hin
        exact delete_edges_props_none_preserved (incidentEdgeKeys s v)
          (afterVertexRemoval s v) (ek, name) hnone
    · intro q l hq p hp
      have hmem := mem_get_vertex_values _ q l hq p hp
      rw [hV] at hmem
      exact (mem_assocRemove hmem).2
    · intro q l hq p hp hinc
      rcases mem_get_edge_values _ q l hq p hp with hm | hm
      · rw [hE] at hm
        obtain ⟨hm1, hm2⟩ := mem_removeKeys hm
        exact hm2 (hmem_deletable p.1 hinc (List.mem_map_of_mem _ hm1))
      · rw [hR] at hm
        obtain ⟨hm1, hm2⟩ := mem_removeKeys hm
        have hmir := hmirror _ hm1
        have hrr : EdgeKey.reversed (EdgeKey.reversed p.1) = p.1 :=
          EdgeKey.reversed_reversed p.1
        rw [hrr] at hmir
        exact hm2 (List.mem_map_of_mem EdgeKey.reversed (hmem_deletable p.1 hinc hmir))
  · have hse : s.delete_edges [ek0] = deleteEdgeStep s ek0 := rfl
    rw [hse]
    refine ⟨?_, ?_, ?_⟩
    · exact assocGet_assocRemove_self s.edges ek0
    · exact assocGet_assocRemove_self s.reversed_edges ek0.reversed
    · intro name
      exact deleteEdgeStep_props_none s ek0 hep name

/-- C3 witness: the cascade theorem applied at the concrete store
`exIdxSet` (vertices 1 and 2, the edge `1 -e-> 2`, a property on vertex 1)
with `v := 1` and `ek0 :=` the edge `1 -e-> 2`; the representation
invariants are checked by evaluation. -/
theorem delete_vertex_and_edge_cascade_witness :
    (exIdxSet.vertex_properties.Pairwise (fun a b => vpKeyLtB a.1 b.1 = true)
     ∧ exIdxSet.edge_properties.Pairwise (fun a b => epKeyLtB a.1 b.1 = true)
     ∧ (∀ p ∈ exIdxSet.reversed_edges, p.1.reversed ∈ exIdxSet.edges.map (fun q => q.1))
     ∧ (∀ p ∈ exIdxSet.edge_properties, p.1.1 ∈ exIdxSet.edges.map (fun q => q.1)))
    ∧ ((assocGet (exIdxSet.delete_vertices [1]).vertices 1 = none
     ∧ (∀ ek : EdgeKey, ek.outbound_id = 1 ∨ ek.inbound_id = 1 →
         assocGet (exIdxSet.delete_vertices [1]).edges ek = none
         ∧ assocGet (exIdxSet.delete_vertices [1]).reversed_edges ek.reversed = none)
     ∧ (∀ name : PropName,
         assocGet (exIdxSet.delete_vertices [1]).vertex_properties (1, name) = none)
     ∧ (∀ (ek : EdgeKey) (name : PropName), ek.outbound_id = 1 ∨ ek.inbound_id = 1 →
         assocGet (exIdxSet.delete_vertices [1]).edge_properties (ek, name) = none)
     ∧ (∀ (q : VertexQuery) (l : List (Uuid × Typ)),
         (exIdxSet.delete_vertices [1]).get_vertex_values_by_query q = .ok l →
           ∀ p ∈ l, p.1 ≠ 1)
     ∧ (∀ (q : EdgeQuery) (l : List (EdgeKey × Nat)),
         (exIdxSet.delete_vertices [1]).get_edge_values_by_query q = .ok l →
           ∀ p ∈ l, ¬(p.1.outbound_id = 1 ∨ p.1.inbound_id = 1)))
    ∧ (assocGet (exIdxSet.delete_edges [exEk]).edges exEk = none
       ∧ assocGet (exIdxSet.delete_edges [exEk]).reversed_edges exEk.reversed = none
       ∧ ∀ name : PropName,
           assocGet (exIdxSet.delete_edges [exEk]).edge_properties (exEk, name) = none)) :=
  ⟨⟨by decide, by decide, by decide, by decide⟩,
    delete_vertex_and_edge_cascade exIdxSet 1 exEk
      (by decide) (by decide) (by decide) (by decide)⟩

/- ### Round-trip lemmas for the persistence encoding -/

theorem decNat_enc (n : Nat) (rest : List Nat) : decNat (encNat n ++ rest) = some (n, rest) := rfl

theorem decChar_enc (c : Char) (rest : List Nat) :
    decChar (encChar c ++ rest) = some (c, rest) := by
  simp [encChar, decChar, Char.ofNat_toNat]

theorem decInt_enc (i : Int) (rest : List Nat) : decInt (encInt i ++ rest) = some (i, rest) := by
  cases i <;> rfl

theorem decListAux_enc {α : Type} (enc : α → List Nat)
    (dec : List Nat → Option (α × List Nat))
    (h : ∀ a rest, dec (enc a ++ rest) = some (a, rest)) :
    ∀ (l : List α) (rest : List Nat),
      decListAux dec l.length ((l.map enc).flatten ++ rest) = some (l, rest) := by
  intro l
  induction l with
  | nil => intro rest; rfl
  | cons a t ih =>
    intro rest
    show decListAux dec (t.length + 1) (((a :: t).map enc).flatten ++ rest) = some (a :: t, rest)
    have : ((a :: t).map enc).flatten ++ rest = enc a ++ ((t.map enc).flatten ++ rest) := by
      simp [List.flatten_cons, List.append_assoc]
    rw [this]
    unfold decListAux
    simp only [h, ih]

theorem decList_enc {α : Type} (enc : α → List Nat)
    (dec : List Nat → Option (α × List Nat))
    (h : ∀ a rest, dec (enc a ++ rest) = some (a, rest)) :
    ∀ (l : List α) (rest : List Nat), decList dec (encList enc l ++ rest) = some (l, rest) := by
  intro l rest
  show decList dec (l.length :: ((l.map enc).flatten ++ rest)) = some (l, rest)
  unfold decList
  exact decListAux_enc enc dec h l rest

theorem decStr_enc (s : String) (rest : List Nat) : decStr (encStr s ++ rest) = some (s, rest) := by
  unfold decStr encStr
  rw [decList_enc encChar decChar decChar_enc s.data rest]

theorem decPair_enc {α β : Type} (f : α → List Nat) (g : β → List Nat)
    (df : List Nat → Option (α × List Nat)) (dg : List Nat → Option (β × List Nat))
    (hf : ∀ a rest, df (f a ++ rest) = some (a, rest))
    (hg : ∀ b rest, dg (g b ++ rest) = some (b, rest)) :
    ∀ (p : α × β) (rest : List Nat), decPair df dg (encPair f g p ++ rest) = some (p, rest) := by
  intro p rest
  unfold decPair encPair
  rw [List.append_assoc]
  simp only [hf, hg]

theorem decEdgeKey_enc (k : EdgeKey) (rest : List Nat) :
    decEdgeKey (encEdgeKey k ++ rest) = some (k, rest) := by
  unfold decEdgeKey encEdgeKey
  simp only [List.append_assoc, decNat_enc, decStr_enc]

theorem jsize_pos (v : JsonValue) : 1 ≤ jsize v := by
  cases v <;> simp [jsize]

theorem asize_pos (a : JsonArr) : 1 ≤ asize a := by
  cases a with
  | nil => simp [asize]
  | cons v tl => simp [asize]; omega

theorem osize_pos (o : JsonObj) : 1 ≤ osize o := by
  cases o with
  | nil => simp [osize]
  | cons k v tl => simp [osize]; omega

theorem decJson_enc_all : ∀ fuel : Nat,
    (∀ (v : JsonValue) (rest : List Nat), jsize v ≤ fuel →
      decJson fuel (encJson v ++ rest) = some (v, rest))
    ∧ (∀ (a : JsonArr) (rest : List Nat), asize a ≤ fuel →
      decJsonArr fuel (encJsonArr a ++ rest) = some (a, rest))
    ∧ (∀ (o : JsonObj) (rest : List Nat), osize o ≤ fuel →
      decJsonObj fuel (encJsonObj o ++ rest) = some (o, rest)) := by
  intro fuel
  induction fuel with
  | zero =>
    refine ⟨?_, ?_, ?_⟩
    · intro v rest hv
      exact absurd hv (by have := jsize_pos v; omega)
    · intro a rest ha
      exact absurd ha (by have := asize_pos a; omega)
    · intro o rest ho
      exact absurd ho (by have := osize_pos o; omega)
  | succ f ih =>
    obtain ⟨ihj, iha, iho⟩ := ih
    refine ⟨?_, ?_, ?_⟩
    · intro v rest hv
      cases v with
      | null => rfl
      | bool b => cases b <;> rfl
      | num i =>
        show decJson (f + 1) (2 :: (encInt i ++ rest)) = some (.num i, rest)
        unfold decJson
        simp only [decInt_enc]
      | str s =>
        show decJson (f + 1) (3 :: (encStr s ++ rest)) = some (.str s, rest)
        unfold decJson
        simp only [decStr_enc]
      | arr a =>
        show decJson (f + 1) (4 :: (encJsonArr a ++ rest)) = some (.arr a, rest)
        unfold decJson
        simp only [iha a rest (by simp [jsize] at hv; omega)]
      | obj o =>
        show decJson (f + 1) (5 :: (encJsonObj o ++ rest)) = some (.obj o, rest)
        unfold decJson
        simp only [iho o rest (by simp [jsize] at hv; omega)]
    · intro a rest ha
      cases a with
      | nil => rfl
      | cons v tl =>
        show decJsonArr (f + 1) (1 :: ((encJson v ++ encJsonArr tl) ++ rest))
          = some (.cons v tl, rest)
        rw [List.append_assoc]
        unfold decJsonArr
        have h1 : jsize v ≤ f := by
          have := asize_pos tl
          simp [asize] at ha
          omega
        have h2 : asize tl ≤ f := by
          have := jsize_pos v
          simp [asize] at ha
          omega
        simp only [ihj v (encJsonArr tl ++ rest) h1, iha tl rest h2]
    · intro o rest ho
      cases o with
      | nil => rfl
      | cons k v tl =>
        show decJsonObj (f + 1) (1 :: ((encStr k ++ (encJson v ++ encJsonObj tl)) ++ rest))
          = some (.cons k v tl, rest)
        rw [List.append_assoc, List.append_assoc]
        unfold decJsonObj
        have h1 : jsize v ≤ f := by
          have := osize_pos tl
          simp [osize] at ho
          omega
        have h2 : osize tl ≤ f := by
          have := jsize_pos v
          simp [osize] at ho
          omega
        simp only [decStr_enc, ihj v (encJsonObj tl ++ rest) h1, iho tl rest h2]

theorem decJsonTop_enc (v : JsonValue) (rest : List Nat) :
    decJsonTop (encJsonTop v ++ rest) = some (v, rest) := by
  show decJson (jsize v) (encJson v ++ rest) = some (v, rest)
  exact (decJson_enc_all (jsize v)).1 v rest (Nat.le_refl _)

theorem decStore_enc (s : InternalMemoryDatastore) (rest : List Nat) :
    decStore (encStore s ++ rest) = some (s, rest) := by
  have d1 := decList_enc _ _ (decPair_enc encNat encStr decNat decStr decNat_enc decStr_enc)
  have d2 := decList_enc _ _ (decPair_enc encEdgeKey encNat decEdgeKey decNat decEdgeKey_enc decNat_enc)
  have d4 := decList_enc _ _ (decPair_enc (encPair encNat encStr) encJsonTop
    (decPair decNat decStr) decJsonTop
    (decPair_enc encNat encStr decNat decStr decNat_enc decStr_enc) decJsonTop_enc)
  have d5 := decList_enc _ _ (decPair_enc (encPair encEdgeKey encStr) encJsonTop
    (decPair decEdgeKey decStr) decJsonTop
    (decPair_enc encEdgeKey encStr decEdgeKey decStr decEdgeKey_enc decStr_enc) decJsonTop_enc)
  have d6 := decList_enc _ _ (decPair_enc encStr
    (encList (encPair encJsonTop (encList encNat)))
    decStr (decList (decPair decJsonTop (decList decNat))) decStr_enc
    (decList_enc _ _ (decPair_enc encJsonTop (encList encNat) decJsonTop
      (decList decNat) decJsonTop_enc (decList_enc _ _ decNat_enc))))
  have d7 := decList_enc _ _ (decPair_enc encStr
    (encList (encPair encJsonTop (encList encEdgeKey)))
    decStr (decList (decPair decJsonTop (decList decEdgeKey))) decStr_enc
    (decList_enc _ _ (decPair_enc encJsonTop (encList encEdgeKey) decJsonTop
      (decList decEdgeKey) decJsonTop_enc (decList_enc _ _ decEdgeKey_enc))))
  unfold decStore encStore
  simp only [List.append_assoc, d1, d2, d4, d5, d6, d7]

theorem assocGet_assocUpdate_self {K V : Type} [DecidableEq K] (m : List (K × V))
    (k : K) (v : V) : assocGet (assocUpdate m k v) k = some v := by
  induction m with
  | nil => simp [assocUpdate, assocGet]
  | cons p rest ih =>
    rcases p with ⟨k', v'⟩
    unfold assocUpdate
    by_cases h : k = k'
    · rw [if_pos h]
      simp [assocGet]
    · rw [if_neg h]
      unfold assocGet
      rw [if_neg (by simpa using fun he => h he.symm)]
      exact ih

/- ### C9 — sync-then-read round trip -/

/-- C9 (confirmed, serialization modelled from the spec).  For a
datastore with a persistence path, `sync` succeeds, and `read` on the same
path afterwards yields a datastore whose internal state — all seven
tables — equals the original (and which remembers the path); the file
update is a single atomic replacement, modelling the temp-file rename as
the commit point. -/
theorem sync_read_round_trip (md : MemoryDatastore) (p : String) (fs : FS)
    (hpath : md.path = some p) :
    (md.sync fs).1 = .ok ()
    ∧ MemoryDatastore.read p (md.sync fs).2 = some ⟨md.datastore, some p⟩ := by
  unfold MemoryDatastore.sync
  rw [hpath]
  refine ⟨rfl, ?_⟩
  show MemoryDatastore.read p (fsWrite fs p (encStore md.datastore)) = some ⟨md.datastore, some p⟩
  unfold MemoryDatastore.read fsWrite
  have hdec : decStore (encStore md.datastore) = some (md.datastore, []) := by
    have := decStore_enc md.datastore []
    simpa using this
  simp only [assocGet_assocUpdate_self, hdec]

/-- C9 witness: the round trip applied at the concrete store `exIdxSet`
persisted at path "db" over the empty file system. -/
theorem sync_read_round_trip_witness :
    (MemoryDatastore.mk exIdxSet (some "db")).path = some "db"
    ∧ (((MemoryDatastore.mk exIdxSet (some "db")).sync []).1 = .ok ()
      ∧ MemoryDatastore.read "db" ((MemoryDatastore.mk exIdxSet (some "db")).sync []).2
          = some ⟨exIdxSet, some "db"⟩) :=
  ⟨rfl, sync_read_round_trip ⟨exIdxSet, some "db"⟩ "db" [] rfl⟩

/- ### C10 — sync without a persistence path is a no-op -/

/-- C10 (confirmed).  `MemoryDatastore::default()` has no persistence
path, and `sync` on any datastore without a path returns `Ok(())` while
leaving the file system — and trivially the datastore state, which `sync`
never mutates — unchanged: no file is created and nothing is serialized. -/
theorem sync_without_path_is_noop :
    MemoryDatastore.default.path = none
    ∧ ∀ (d : InternalMemoryDatastore) (fs : FS),
        MemoryDatastore.sync ⟨d, none⟩ fs = (.ok (), fs) :=
  ⟨rfl, fun _ _ => rfl⟩
